import Mathlib

/-!
# Verification of the money-flow receipt parser

Shallow embedding of `src/utils/currencyParser.ts` (functions
`parseNorwegianCurrency` and `extractStructuredFields`) over `List Char`,
with JavaScript numbers modelled as `ℚ` (all amounts involved are exact
decimals).  Regular expressions from the source are embedded as explicit
pattern ASTs with a backtracking matcher reproducing the leftmost-match,
alternation-priority and greedy-quantifier semantics of JS regexes.
-/

namespace MoneyFlow

/-! ## Characters

`isDigit09` is the JS `[0-9]` / `\d` class.  `isJsWs` is the JS `\s` class
(ASCII whitespace plus the Unicode space characters JS includes).
`canonCI` models the canonicalisation used by case-insensitive JS regex
matching restricted to the characters actually occurring in the source
patterns: ASCII letters fold to upper case, and the Norwegian letters
å/ø/æ fold to Å/Ø/Æ (as `toUpperCase` does).  `upperChar` models
`String.prototype.toUpperCase` on the same alphabet. -/

def isDigit09 (c : Char) : Bool := '0' ≤ c && c ≤ '9'

def isJsWs (c : Char) : Bool :=
  c == ' ' || c == '\t' || c == '\n' || c == '\r' ||
  c == '\x0b' || c == '\x0c' ||
  c == '\u00a0' || c == '\u1680' ||
  ('\u2000' ≤ c && c ≤ '\u200a') ||
  c == '\u2028' || c == '\u2029' || c == '\u202f' ||
  c == '\u205f' || c == '\u3000' || c == '\ufeff'

def canonCI (c : Char) : Nat :=
  let n := c.toNat
  if 97 ≤ n && n ≤ 122 then n - 32
  else if n = 229 then 197      -- å ↦ Å
  else if n = 248 then 216      -- ø ↦ Ø
  else if n = 230 then 198      -- æ ↦ Æ
  else n

/-- Case-insensitive character comparison, as performed by a JS regex with
the `i` flag on the pattern characters used in the source. -/
def ciEq (p a : Char) : Bool := canonCI p == canonCI a

/-- `String.prototype.toUpperCase`, restricted to the ASCII/Norwegian
letters that can occur in a currency-code match. -/
def upperChar (c : Char) : Char :=
  let n := c.toNat
  if 97 ≤ n && n ≤ 122 then Char.ofNat (n - 32)
  else if n = 229 then 'Å'
  else if n = 248 then 'Ø'
  else if n = 230 then 'Æ'
  else c

/-- The JS `\w` class `[A-Za-z0-9_]`, used for `\b` word boundaries. -/
def isWordChar (c : Char) : Bool :=
  ('a' ≤ c && c ≤ 'z') || ('A' ≤ c && c ≤ 'Z') || isDigit09 c || c == '_'

/-! ## Generic string (list-of-char) helpers from the source -/

/-- `String.prototype.trim` (drops JS whitespace at both ends). -/
def trimWS (l : List Char) : List Char :=
  ((l.dropWhile isJsWs).reverse.dropWhile isJsWs).reverse

/-- `.replace(/\s+/g, ' ')`: every maximal whitespace run becomes one
space.  The boolean records whether the previous character was part of a
whitespace run. -/
def squeezeAux : Bool → List Char → List Char
  | _, [] => []
  | prevWs, c :: cs =>
    if isJsWs c then
      if prevWs then squeezeAux true cs else ' ' :: squeezeAux true cs
    else c :: squeezeAux false cs

def squeezeWS (l : List Char) : List Char := squeezeAux false l

/-- `String.prototype.lastIndexOf` for a single character (`-1` when the
character does not occur). -/
def lastIdxOf? (a : Char) : List Char → Option Nat
  | [] => none
  | c :: cs =>
    match lastIdxOf? a cs with
    | some k => some (k + 1)
    | none => if c = a then some 0 else none

def lastIdxOf (a : Char) (l : List Char) : Int :=
  match lastIdxOf? a l with
  | some k => (k : Int)
  | none => -1

/-- `.replace(x, y)` with a plain (non-regex) one-character pattern:
replaces only the first occurrence. -/
def replaceFirst : List Char → Char → Char → List Char
  | [], _, _ => []
  | c :: cs, a, b => if c = a then b :: cs else c :: replaceFirst cs a b

/-- `cleaned.substring(cleaned.lastIndexOf(a) + 1)`: the characters after
the last occurrence of `a` (the whole list if `a` is absent, but the
source only uses it when `a` is present). -/
def afterLast (a : Char) (l : List Char) : List Char :=
  (l.reverse.takeWhile (fun c => c ≠ a)).reverse

/-! ## `parseFloat`

After the final strip the source's string contains only digits and dots;
`parseFloatQ` implements JS `parseFloat` on such strings: the longest
prefix of the form `digits [ '.' digits ]` is parsed (so a second dot
stops the parse), and an empty or dot-only prefix gives `NaN`
(modelled as `none`). -/

def digitsToNat (l : List Char) : Nat :=
  l.foldl (fun n c => 10 * n + (c.toNat - 48)) 0

/-- The value of the decimal numeral `ip.fp` as a rational,
`(ip * 10^|fp| + fp) / 10^|fp|` (built with `mkRat` so that it is a
normalised rational; `parseFloatQ_cons_val` below restates it as
`ip + fp / 10^|fp|`). -/
def decValue (ip fp : List Char) : ℚ :=
  mkRat (digitsToNat ip * 10 ^ fp.length + digitsToNat fp) (10 ^ fp.length)

def parseFloatQ (s : List Char) : Option ℚ :=
  let ip := s.takeWhile isDigit09
  let rest := s.dropWhile isDigit09
  match rest with
  | c :: rest2 =>
    if c = '.' then
      let fp := rest2.takeWhile isDigit09
      if ip.isEmpty && fp.isEmpty then none
      else some (decValue ip fp)
    else if ip.isEmpty then none else some (digitsToNat ip)
  | [] => if ip.isEmpty then none else some (digitsToNat ip)

/-! ## `parseNorwegianCurrency` (the spec's `normalizeAmount`) -/

/-- `.replace(/[^\d.]/g, '')`. -/
def stripToNum (l : List Char) : List Char :=
  l.filter (fun c => isDigit09 c || c == '.')

/-- Shallow embedding of `parseNorwegianCurrency` from
`src/utils/currencyParser.ts`. -/
def parseNorwegianCurrency (moneyStr : List Char) : Option ℚ :=
  if moneyStr.isEmpty then none
  else
    let cleaned := trimWS moneyStr
    let hasComma := cleaned.contains ','
    let hasDot := cleaned.contains '.'
    let lastCommaPos := lastIdxOf ',' cleaned
    let lastDotPos := lastIdxOf '.' cleaned
    let normalized :=
      if hasComma && hasDot then
        if lastCommaPos > lastDotPos then
          -- Format 1.234,56: drop all dots, first comma becomes the dot
          replaceFirst (cleaned.filter (fun c => c ≠ '.')) ',' '.'
        else
          -- Format 1,234.56: drop all commas
          cleaned.filter (fun c => c ≠ ',')
      else if hasComma && !hasDot then
        let afterComma := afterLast ',' cleaned
        if afterComma.length == 2 && afterComma.all isDigit09 then
          replaceFirst cleaned ',' '.'
        else
          cleaned.filter (fun c => c ≠ ',')
      else if hasDot && !hasComma then
        let afterDot := afterLast '.' cleaned
        if afterDot.length == 2 && afterDot.all isDigit09 then
          cleaned
        else
          cleaned.filter (fun c => c ≠ '.')
      else cleaned
    parseFloatQ (stripToNum normalized)

/-! ## A small JS-regex engine

The source uses a fixed set of regex literals.  `RE` is an AST covering
exactly the constructs they need; `mrun` is a continuation-passing
backtracking matcher reproducing JS semantics: alternation tries the left
branch first, quantifiers are greedy, `a*` stops iterating on an empty
body match, and the overall search returns the leftmost match.  `fuel`
only bounds the recursion depth; it is chosen large enough (see
`bigFuel`) that it never runs out on the patterns at hand, each of whose
starred bodies consumes at least one character per iteration. -/

inductive RE : Type
  | eps : RE
  | cls (p : Char → Bool) : RE
  | cat (a b : RE) : RE
  | alt (a b : RE) : RE
  | opt (a : RE) : RE
  | star (a : RE) : RE
  | repUpTo (a : RE) (n : Nat) : RE
  | group (i : Nat) (a : RE) : RE

/-- Captured groups: most recent capture first. -/
abbrev Caps := List (Nat × List Char)

def orElseO {α : Type} : Option α → Option α → Option α
  | some a, _ => some a
  | none, b => b

def mrun : Nat → RE → List Char → Caps → (List Char → Caps → Option (List Char × Caps)) →
    Option (List Char × Caps)
  | 0, _, _, _, _ => none
  | fuel + 1, re, s, caps, k =>
    match re with
    | .eps => k s caps
    | .cls p =>
      match s with
      | [] => none
      | c :: cs => if p c then k cs caps else none
    | .cat a b => mrun fuel a s caps (fun s2 c2 => mrun fuel b s2 c2 k)
    | .alt a b => orElseO (mrun fuel a s caps k) (mrun fuel b s caps k)
    | .opt a => orElseO (mrun fuel a s caps k) (k s caps)
    | .star a =>
      orElseO
        (mrun fuel a s caps (fun s2 c2 =>
          if s2.length < s.length then mrun fuel (.star a) s2 c2 k else none))
        (k s caps)
    | .repUpTo a n =>
      match n with
      | 0 => k s caps
      | n + 1 =>
        orElseO
          (mrun fuel a s caps (fun s2 c2 => mrun fuel (.repUpTo a n) s2 c2 k))
          (k s caps)
    | .group i a =>
      mrun fuel a s caps (fun s2 c2 => k s2 ((i, s.take (s.length - s2.length)) :: c2))

def bigFuel (s : List Char) : Nat := 1000 * (s.length + 10)

/-- Try to match `re` at the start of `s`; on success return the
remaining input and the captures. -/
def matchHere (re : RE) (s : List Char) : Option (List Char × Caps) :=
  mrun (bigFuel s) re s [] (fun rest caps => some (rest, caps))

/-- Leftmost match: `(matched substring, input after the match, captures)`,
the semantics of `text.match(re)` / a fresh `re.exec(text)`. -/
def searchRE (re : RE) : List Char → Option (List Char × List Char × Caps)
  | [] =>
    match matchHere re [] with
    | some (rest, caps) => some ([], rest, caps)
    | none => none
  | c :: t =>
    match matchHere re (c :: t) with
    | some (rest, caps) => some ((c :: t).take ((c :: t).length - rest.length), rest, caps)
    | none => searchRE re t

/-- All matches of a `/g` regex in `exec`-loop order (each search resumes
after the previous match; the source's patterns never match the empty
string, so the loop always advances). -/
def execAllAux (re : RE) : Nat → List Char → List (List Char × Caps)
  | 0, _ => []
  | f + 1, s =>
    match searchRE re s with
    | none => []
    | some (m0, rest, caps) => (m0, caps) :: execAllAux re f rest

def execAll (re : RE) (s : List Char) : List (List Char × Caps) :=
  execAllAux re (s.length + 1) s

/-- `match[i]`: the capture of group `i` (`none` = `undefined`). -/
def getCap (i : Nat) : Caps → Option (List Char)
  | [] => none
  | (j, g) :: rest => if j == i then some g else getCap i rest

/-! ### Pattern-building helpers -/

/-- A literal word, each character matched case-insensitively (`/i`). -/
def litCI (w : List Char) : RE := w.foldr (fun c r => .cat (.cls (ciEq c)) r) .eps

/-- `r{n}`: exactly `n` repetitions. -/
def repsRE (r : RE) : Nat → RE
  | 0 => .eps
  | n + 1 => .cat r (repsRE r n)

def digitRE : RE := .cls isDigit09
def wsRE : RE := .cls isJsWs
/-- `\s*` -/
def wsStar : RE := .star wsRE
/-- `\s+` -/
def wsPlus : RE := .cat wsRE wsStar
/-- `[.,]` -/
def dotCommaRE : RE := .cls (fun c => c == '.' || c == ',')
/-- `[\s.,]` -/
def wsDotCommaRE : RE := .cls (fun c => isJsWs c || c == '.' || c == ',')
/-- `[0-9]{1,4}` (greedy, preferring 4 first, as JS does). -/
def digits14 : RE := .cat digitRE (.repUpTo digitRE 3)

/-- `[0-9]{1,4}(?:[\s.,][0-9]{3})*[.,][0-9]{2}` (the number shape in the
total patterns and the money regex). -/
def numT : RE :=
  .cat digits14 (.cat (.star (.cat wsDotCommaRE (repsRE digitRE 3)))
    (.cat dotCommaRE (repsRE digitRE 2)))

/-- `[0-9]+[.,][0-9]{2}` -/
def numPlain : RE :=
  .cat (.cat digitRE (.star digitRE)) (.cat dotCommaRE (repsRE digitRE 2))

/-- `[0-9]{1,4}(?:[.,]\s*[0-9]{3})*[.,][0-9]{2}` (the VAT-breakdown
number shape of the first VAT pattern). -/
def numV : RE :=
  .cat digits14 (.cat (.star (.cat dotCommaRE (.cat wsStar (repsRE digitRE 3))))
    (.cat dotCommaRE (repsRE digitRE 2)))

/-- `[0-9]{1,4}(?:[.,][0-9]{3})*[.,][0-9]{2}` (the number shape of the
remaining VAT patterns). -/
def numW : RE :=
  .cat digits14 (.cat (.star (.cat dotCommaRE (repsRE digitRE 3)))
    (.cat dotCommaRE (repsRE digitRE 2)))

/-! ## The concrete patterns of `extractStructuredFields` -/

/-- `/([0-9]{1,4}(?:[.,]\s*[0-9]{3})*[.,][0-9]{2})\s*25%\s*([0-9]{1,4}(?:[.,]\s*[0-9]{3})*[.,][0-9]{2})/i` -/
def vatP1 : RE :=
  .cat (.group 1 numV) (.cat wsStar (.cat (litCI "25%".toList)
    (.cat wsStar (.group 2 numV))))

/-- `/herav\s+mva\s+([0-9]{1,4}(?:[.,][0-9]{3})*[.,][0-9]{2})/i` -/
def vatP2 : RE :=
  .cat (litCI "herav".toList) (.cat wsPlus (.cat (litCI "mva".toList)
    (.cat wsPlus (.group 1 numW))))

/-- `/(?:MVA|VAT)\s*(?:25%?)?\s*([0-9]{1,4}(?:[.,][0-9]{3})*[.,][0-9]{2})/i` -/
def vatP3 : RE :=
  .cat (.alt (litCI "MVA".toList) (litCI "VAT".toList))
    (.cat wsStar (.cat (.opt (.cat (litCI "25".toList) (.opt (litCI "%".toList))))
      (.cat wsStar (.group 1 numW))))

/-- `/MVA\s+([0-9]{1,4}(?:[.,][0-9]{3})*[.,][0-9]{2})/i` -/
def vatP4 : RE := .cat (litCI "MVA".toList) (.cat wsPlus (.group 1 numW))

/-- `/([0-9]{1,4}(?:[.,][0-9]{3})*[.,][0-9]{2})\s*(?:MVA|VAT)/i` -/
def vatP5 : RE :=
  .cat (.group 1 numW) (.cat wsStar (.alt (litCI "MVA".toList) (litCI "VAT".toList)))

/-- The keyword alternation of the first total pattern
`(?:totalt|total|sum|å\s*betale|beløp|purchase\s*nok)`. -/
def totalKw : RE :=
  .alt (litCI "totalt".toList) (.alt (litCI "total".toList) (.alt (litCI "sum".toList)
    (.alt (.cat (litCI "å".toList) (.cat wsStar (litCI "betale".toList)))
      (.alt (litCI "beløp".toList)
        (.cat (litCI "purchase".toList) (.cat wsStar (litCI "nok".toList)))))))

/-- `/(?:totalt|total|sum|å\s*betale|beløp|purchase\s*nok)\s*[:=]?\s*([0-9]{1,4}(?:[\s.,][0-9]{3})*[.,][0-9]{2}|[0-9]+[.,][0-9]{2})/gi` -/
def totalP1 : RE :=
  .cat totalKw (.cat wsStar (.cat (.opt (.cls (fun c => c == ':' || c == '=')))
    (.cat wsStar (.group 1 (.alt numT numPlain)))))

/-- `/bank:\s*([0-9]{1,4}(?:[\s.,][0-9]{3})*[.,][0-9]{2})/gi` -/
def totalP2 : RE := .cat (litCI "bank:".toList) (.cat wsStar (.group 1 numT))

/-- `/([0-9]{1,4}(?:[\s.,][0-9]{3})*[.,][0-9]{2})\s*(?:totalt|total|sum)/gi` -/
def totalP3 : RE :=
  .cat (.group 1 numT) (.cat wsStar
    (.alt (litCI "totalt".toList) (.alt (litCI "total".toList) (litCI "sum".toList))))

/-- `/([0-9]{1,4}(?:[\s.,][0-9]{3})*[.,][0-9]{2}|[0-9]+[.,][0-9]{2})/g` -/
def moneyRE : RE := .group 1 (.alt numT numPlain)

/-- `/(?:org\.?\s*nr|bus\.?\s*reg\.?\s*no)/i` -/
def orgRE : RE :=
  .alt (.cat (litCI "org".toList) (.cat (.opt (.cls (fun c => c == '.')))
      (.cat wsStar (litCI "nr".toList))))
    (.cat (litCI "bus".toList) (.cat (.opt (.cls (fun c => c == '.')))
      (.cat wsStar (.cat (litCI "reg".toList) (.cat (.opt (.cls (fun c => c == '.')))
        (.cat wsStar (litCI "no".toList)))))))

/-- `^\d+\s` (the anchored half of `/^\d+\s|\d{4}\s/`). -/
def addrHeadRE : RE := .cat digitRE (.cat (.star digitRE) wsRE)

/-- `\d{4}\s` (the unanchored half of `/^\d+\s|\d{4}\s/`). -/
def addr4RE : RE := .cat (repsRE digitRE 4) wsRE

/-- `/(telefon|phone)/i` -/
def phoneRE : RE := .alt (litCI "telefon".toList) (litCI "phone".toList)

/-- `[a-zA-ZæøåÆØÅ]` -/
def merchLetter (c : Char) : Bool :=
  ('a' ≤ c && c ≤ 'z') || ('A' ≤ c && c ≤ 'Z') ||
  c == 'æ' || c == 'ø' || c == 'å' || c == 'Æ' || c == 'Ø' || c == 'Å'

/-- `/[a-zA-ZæøåÆØÅ]{3,}/` as a test (`{3,}` matches somewhere iff three
consecutive class characters occur somewhere). -/
def letters3RE : RE := repsRE (.cls merchLetter) 3

/-! ## Line splitting

`text.split(/\r?\n/)`: a separator is `\n` optionally preceded by `\r`;
a lone `\r` stays inside its line. -/

def splitLinesAux : List Char → List Char → List (List Char)
  | acc, [] => [acc.reverse]
  | acc, '\r' :: '\n' :: rest => acc.reverse :: splitLinesAux [] rest
  | acc, '\n' :: rest => acc.reverse :: splitLinesAux [] rest
  | acc, c :: rest => splitLinesAux (c :: acc) rest

def splitLines (text : List Char) : List (List Char) := splitLinesAux [] text

/-- `text.split(/\r?\n/).map(l => l.trim()).filter(Boolean)` -/
def linesOf (text : List Char) : List (List Char) :=
  ((splitLines text).map trimWS).filter (fun l => !l.isEmpty)

/-! ## The store-name word matcher

Each store pattern is a case-insensitive literal, or two literals joined
by `\s*` (e.g. `/BILTEMA\s*NORGE/i`).  Because every literal starts with a
non-whitespace character, the greedy `\s*` never needs to backtrack, so
the following direct matcher has exactly the JS semantics for these
patterns. -/

/-- Case-insensitive literal match at the head of the input; returns the
matched text characters and the rest. -/
def matchLit : List Char → List Char → Option (List Char × List Char)
  | [], s => some ([], s)
  | _ :: _, [] => none
  | p :: ps, a :: as =>
    if ciEq p a then
      match matchLit ps as with
      | some (m, r) => some (a :: m, r)
      | none => none
    else none

/-- Match a `\s*`-separated word sequence at the head of the input. -/
def matchWords : List (List Char) → List Char → Option (List Char × List Char)
  | [], s => some ([], s)
  | [w], s => matchLit w s
  | w :: ws, s =>
    match matchLit w s with
    | none => none
    | some (m, r) =>
      let sp := r.takeWhile isJsWs
      let r2 := r.dropWhile isJsWs
      match matchWords ws r2 with
      | none => none
      | some (m2, r3) => some (m ++ sp ++ m2, r3)

/-- Leftmost match of a word pattern anywhere in the text (the
`text.match(p)` search, returning `match[0]`). -/
def searchWords (ws : List (List Char)) : List Char → Option (List Char)
  | [] =>
    match matchWords ws [] with
    | some (m, _) => some m
    | none => none
  | c :: t =>
    match matchWords ws (c :: t) with
    | some (m, _) => some m
    | none => searchWords ws t

/-- The ordered store-pattern list of the source (each entry the word
sequence of one regex literal). -/
def storePatterns : List (List (List Char)) :=
  [["BILTEMA".toList, "NORGE".toList],
   ["BILTEMA".toList],
   ["ANTONSPORT".toList],
   ["COOP".toList, "PRIX".toList],
   ["REMA".toList, "1000".toList],
   ["ICA".toList, "SUPERMARKET".toList],
   ["KIWI".toList],
   ["BUNNPRIS".toList],
   ["MENY".toList],
   ["EUROPRIS".toList],
   ["PLANTASJEN".toList],
   ["SPORTSHOLDING".toList]]

/-! ## Merchant detection -/

/-- `/SPORTSHOLDING/i.test(x)` (case-insensitive substring test). -/
def containsSportsholding (l : List Char) : Bool :=
  (searchWords ["SPORTSHOLDING".toList] l).isSome

/-- The `for (const pattern of storePatterns)` loop: the first matching
store pattern wins; the match is whitespace-collapsed and trimmed, and a
SPORTSHOLDING hit is replaced by a raw ANTONSPORT match when one exists
elsewhere in the text. -/
def storeGo (text : List Char) : List (List (List Char)) → Option (List Char)
  | [] => none
  | p :: ps =>
    match searchWords p text with
    | some m =>
      let fm := trimWS (squeezeWS m)
      let fm2 :=
        if containsSportsholding fm then
          match searchWords ["ANTONSPORT".toList] text with
          | some am => am
          | none => fm
        else fm
      some fm2
    | none => storeGo text ps

/-- The org-id line test `/(?:org\.?\s*nr|bus\.?\s*reg\.?\s*no)/i.test(l)`. -/
def orgLineTest (l : List Char) : Bool := (searchRE orgRE l).isSome

/-- The qualifying-line test of the org-id merchant heuristic:
`line && !/^\d+\s|\d{4}\s/.test(line) && !/(telefon|phone)/i.test(line)
&& line.length > 2 && /[a-zA-ZæøåÆØÅ]{3,}/.test(line)`. -/
def merchLineOk (l : List Char) : Bool :=
  !l.isEmpty &&
  !((matchHere addrHeadRE l).isSome || (searchRE addr4RE l).isSome) &&
  !(searchRE phoneRE l).isSome &&
  decide (l.length > 2) &&
  (searchRE letters3RE l).isSome

/-- The merchant field: store-pattern route, then the org-id heuristic
(scan the up-to-3 lines before the org line), then the first non-empty
line truncated to 60 characters (which is also the initial value
`lines[0]?.slice(0, 60)`). -/
def merchantOf (text : List Char) (lines : List (List Char)) : Option (List Char) :=
  match storeGo text storePatterns with
  | some m => some m
  | none =>
    match lines.findIdx? orgLineTest with
    | some idx =>
      match ((lines.take idx).drop (idx - 3)).find? merchLineOk with
      | some l => some (trimWS (l.take 60))
      | none => lines.head?.map (fun l => l.take 60)
    | none => lines.head?.map (fun l => l.take 60)

/-! ## Currency detection

`text.match(/\b(EUR|USD|GBP|SEK|DKK|NOK)\b/i)`: scan left to right; at
each position, a code matches if the previous character (when any) is not
a word character, the three text characters match the code
case-insensitively, and the following character (when any) is not a word
character.  The matched text is returned (`match[1]`). -/

def currencyCodes : List (List Char) :=
  ["EUR".toList, "USD".toList, "GBP".toList, "SEK".toList, "DKK".toList, "NOK".toList]

/-- Try each code at the current position (word-boundary placement of
`\b(C1|C2|...)\b` at a fixed position). -/
def currencyAt (codes : List (List Char)) (s : List Char) : Option (List Char) :=
  match codes with
  | [] => none
  | w :: ws =>
    match matchLit w s with
    | some (m, r) =>
      match r.head? with
      | some c => if isWordChar c then currencyAt ws s else some m
      | none => some m
    | none => currencyAt ws s

def findCurrencyAux : Option Char → List Char → Option (List Char)
  | prev, s =>
    let here :=
      if (prev.map isWordChar).getD false then none
      else currencyAt currencyCodes s
    match here with
    | some m => some m
    | none =>
      match s with
      | [] => none
      | c :: t => findCurrencyAux (some c) t

def findCurrency (text : List Char) : Option (List Char) :=
  findCurrencyAux none text

/-! ## VAT detection -/

/-- `vatMatch[2] || vatMatch[1]` (an `undefined` group, or an empty
capture, falls through to group 1; a missing group 1 gives the empty
string, which `parseNorwegianCurrency` maps to `none` just as it maps
`undefined`). -/
def selCap (caps : Caps) : List Char :=
  match getCap 2 caps with
  | some g => if g.isEmpty then (getCap 1 caps).getD [] else g
  | none => (getCap 1 caps).getD []

/-- The selected capture of VAT pattern `i` on the text, when it matches. -/
def vatSel (re : RE) (text : List Char) : Option (List Char) :=
  (searchRE re text).map (fun r => selCap r.2.2)

def vatCandidates (text : List Char) : List (Option (List Char)) :=
  [vatSel vatP1 text, vatSel vatP2 text, vatSel vatP3 text,
   vatSel vatP4 text, vatSel vatP5 text]

/-- JS truthiness of `vatAmount` (`undefined` and `0` are falsy). -/
def qTruthy : Option ℚ → Bool
  | none => false
  | some q => q != 0

/-- The `for (const vatMatch of vatMatches)` loop: each matching pattern
overwrites `vatAmount` with the parse of its selected capture (possibly
`undefined`), and the loop stops at the first truthy value. -/
def vatLoop : List (Option (List Char)) → Option ℚ → Option ℚ
  | [], acc => acc
  | none :: rest, acc => vatLoop rest acc
  | some s :: rest, _ =>
    let v := parseNorwegianCurrency s
    if qTruthy v then v else vatLoop rest v

def vatDetect (text : List Char) : Option ℚ := vatLoop (vatCandidates text) none

/-! ## Total detection -/

/-- Group-1 candidates of all three keyword-anchored total patterns, in
`exec`-loop order. -/
def totalCands (text : List Char) : List (List Char) :=
  (execAll totalP1 text ++ execAll totalP2 text ++ execAll totalP3 text).map
    (fun r => (getCap 1 r.2).getD [])

/-- Group-1 candidates of the generic money regex. -/
def moneyCands (text : List Char) : List (List Char) :=
  (execAll moneyRE text).map (fun r => (getCap 1 r.2).getD [])

/-- Phase 1: `if (amount && amount > (total || 0) && amount < 1_000_000)
total = amount`. -/
def totalFold : List (List Char) → Option ℚ → Option ℚ
  | [], acc => acc
  | s :: rest, acc =>
    let acc2 :=
      match parseNorwegianCurrency s with
      | some q => if q != 0 && q > acc.getD 0 && q < 1000000 then some q else acc
      | none => acc
    totalFold rest acc2

/-- Phase 2 (fallback): `if (amount && amount > max && amount < 1_000_000)
max = amount`. -/
def fbFold : List (List Char) → ℚ → ℚ
  | [], m => m
  | s :: rest, m =>
    let m2 :=
      match parseNorwegianCurrency s with
      | some q => if q != 0 && q > m && q < 1000000 then q else m
      | none => m
    fbFold rest m2

/-- The total field: keyword-anchored maximum, falling back (on a falsy
phase-1 result) to the global maximum, `total = max > 0 ? max :
undefined`. -/
def totalSelect (text : List Char) : Option ℚ :=
  let t1 := totalFold (totalCands text) none
  if qTruthy t1 then t1
  else
    let mx := fbFold (moneyCands text) 0
    if mx > 0 then some mx else none

/-! ## The extractor -/

structure ExtractedFields where
  merchant : Option (List Char)
  vatAmount : Option ℚ
  total : Option ℚ
  currency : List Char
deriving DecidableEq, Repr

/-- Shallow embedding of `extractStructuredFields` from
`src/utils/currencyParser.ts` (the runtime always sets `currency`, so it
is modelled as a plain field). -/
def extractStructuredFields (text : List Char) : ExtractedFields :=
  let lines := linesOf text
  let merchant := merchantOf text lines
  let currency :=
    match findCurrency text with
    | some m => m.map upperChar
    | none => "NOK".toList
  let vatAmount := vatDetect text
  let total := totalSelect text
  ⟨merchant, vatAmount, total, currency⟩

/-! ## Spec-side selection function for the total (claim C4)

`totalPerSpec` is *not* a translation of the source: it follows the
spec's words — "collect every match, normalize, keep the maximum among
values that are positive and strictly below 1,000,000; the fallback scan
is consulted only when the keyword phase finds nothing" — so that the
source's fold can be proved equal to it (a refinement statement). -/

/-- The qualifying normalized values of a candidate list: normalizable,
positive, and strictly below 1,000,000. -/
def qualifyingVals (cands : List (List Char)) : List ℚ :=
  (cands.filterMap parseNorwegianCurrency).filter (fun q => 0 < q && q < 1000000)

/-- The maximum of a list of rationals (`none` on the empty list). -/
def listMax? : List ℚ → Option ℚ
  | [] => none
  | a :: as => some (as.foldl max a)

/-- The total as worded by the spec: the maximum qualifying
keyword-anchored value; only when there is none, the maximum qualifying
money-shaped value; absent when no candidate qualifies. -/
def totalPerSpec (text : List Char) : Option ℚ :=
  match listMax? (qualifyingVals (totalCands text)) with
  | some v => some v
  | none => listMax? (qualifyingVals (moneyCands text))

/-- Count of non-whitespace characters (used to bound the length of a
whitespace-collapsed store-pattern match). -/
def nonWsCount (l : List Char) : Nat := l.countP (fun c => !isJsWs c)

/-- Total length of the literal words of a store pattern. -/
def wordsLen (ws : List (List Char)) : Nat := (ws.map List.length).sum

/-! ## Helper lemmas: strings and `parseFloatQ` -/

theorem dropWhile_of_all_not {p : Char → Bool} :
    ∀ {l : List Char}, (∀ c ∈ l, p c = false) → l.dropWhile p = l
  | [], _ => rfl
  | c :: cs, h => by
    simp only [List.dropWhile]
    rw [h c (by simp)]

theorem trimWS_eq_self {l : List Char} (h : ∀ c ∈ l, isJsWs c = false) :
    trimWS l = l := by
  unfold trimWS
  rw [dropWhile_of_all_not h, dropWhile_of_all_not (by simpa using h), List.reverse_reverse]

theorem length_dropWhile_le' (p : Char → Bool) :
    ∀ l : List Char, (l.dropWhile p).length ≤ l.length
  | [] => Nat.le_refl _
  | c :: cs => by
    simp only [List.dropWhile]
    cases p c with
    | true => exact Nat.le_succ_of_le (length_dropWhile_le' p cs)
    | false => exact Nat.le_refl _

theorem trimWS_length_le (l : List Char) : (trimWS l).length ≤ l.length := by
  unfold trimWS
  calc ((l.dropWhile isJsWs).reverse.dropWhile isJsWs).reverse.length
      = ((l.dropWhile isJsWs).reverse.dropWhile isJsWs).length := List.length_reverse _
    _ ≤ (l.dropWhile isJsWs).reverse.length := length_dropWhile_le' _ _
    _ = (l.dropWhile isJsWs).length := List.length_reverse _
    _ ≤ l.length := length_dropWhile_le' _ _

theorem takeWhile_all_cons_not {p : Char → Bool} {a : List Char} {b : Char}
    {r : List Char} (ha : ∀ c ∈ a, p c = true) (hb : p b = false) :
    (a ++ b :: r).takeWhile p = a ∧ (a ++ b :: r).dropWhile p = b :: r := by
  induction a with
  | nil => simp [List.takeWhile, List.dropWhile, hb]
  | cons c cs ih =>
    have hc : p c = true := ha c (by simp)
    have ih2 := ih (fun x hx => ha x (by simp [hx]))
    simp only [List.cons_append, List.takeWhile, List.dropWhile, hc, List.append_eq]
    exact ⟨by rw [ih2.1], ih2.2⟩

theorem takeWhile_of_all {p : Char → Bool} :
    ∀ {l : List Char}, (∀ c ∈ l, p c = true) → l.takeWhile p = l
  | [], _ => rfl
  | c :: cs, h => by
    simp only [List.takeWhile]
    rw [h c (by simp), takeWhile_of_all (fun x hx => h x (by simp [hx]))]

/-- `decValue` in the familiar `integer + fraction` form. -/
theorem decValue_eq (ip fp : List Char) :
    decValue ip fp = (digitsToNat ip : ℚ) + (digitsToNat fp : ℚ) / (10 : ℚ) ^ fp.length := by
  unfold decValue
  rw [Rat.mkRat_eq_div]
  have h10 : ((10 : ℚ) ^ fp.length) ≠ 0 := by positivity
  push_cast
  field_simp

theorem decValue_nonneg (ip fp : List Char) : 0 ≤ decValue ip fp := by
  rw [decValue_eq]
  positivity

theorem parseFloatQ_nonneg {s : List Char} {q : ℚ} (h : parseFloatQ s = some q) :
    0 ≤ q := by
  unfold parseFloatQ at h
  dsimp only [] at h
  split at h
  · split at h
    · split at h
      · exact absurd h (by simp)
      · rw [Option.some_inj] at h
        subst h
        exact decValue_nonneg _ _
    · split at h
      · exact absurd h (by simp)
      · rw [Option.some_inj] at h
        subst h
        positivity
  · split at h
    · exact absurd h (by simp)
    · rw [Option.some_inj] at h
      subst h
      positivity

theorem parseNorwegianCurrency_nonneg {s : List Char} {q : ℚ}
    (h : parseNorwegianCurrency s = some q) : 0 ≤ q := by
  unfold parseNorwegianCurrency at h
  split at h
  · exact absurd h (by simp)
  · exact parseFloatQ_nonneg h

/-! ### Character-class facts -/

theorem isDigit09_toNat {c : Char} (h : isDigit09 c = true) :
    48 ≤ c.toNat ∧ c.toNat ≤ 57 := by
  unfold isDigit09 at h
  rw [Bool.and_eq_true, decide_eq_true_eq, decide_eq_true_eq] at h
  exact ⟨Char.le_def.mp h.1, Char.le_def.mp h.2⟩

theorem eq_of_toNat_eq {c d : Char} (h : c.toNat = d.toNat) : c = d := by
  have h1 := Char.ofNat_toNat c
  rw [h, Char.ofNat_toNat] at h1
  exact h1.symm

theorem toNat_ne_of_ne {c : Char} {n : Nat} (hc : c.toNat ≠ n) (d : Char)
    (hd : d.toNat = n) : c ≠ d := by
  intro h
  rw [h, hd] at hc
  exact hc rfl

theorem isDigit09_not_ws {c : Char} (h : isDigit09 c = true) : isJsWs c = false := by
  obtain ⟨h1, h2⟩ := isDigit09_toNat h
  rw [← Char.ofNat_toNat c]
  generalize hg : c.toNat = n at h1 h2 ⊢
  interval_cases n <;> decide

theorem isDigit09_ne_dot {c : Char} (h : isDigit09 c = true) : c ≠ '.' := by
  intro heq
  rw [heq] at h
  exact absurd h (by decide)

theorem isDigit09_ne_comma {c : Char} (h : isDigit09 c = true) : c ≠ ',' := by
  intro heq
  rw [heq] at h
  exact absurd h (by decide)

/-! ### Position and rewrite lemmas for the separator logic -/

theorem lastIdxOf?_of_not_mem {a : Char} : ∀ {l : List Char}, a ∉ l → lastIdxOf? a l = none
  | [], _ => rfl
  | c :: cs, h => by
    have hc : c ≠ a := fun hh => h (by simp [hh])
    have hcs : a ∉ cs := fun hh => h (by simp [hh])
    simp only [lastIdxOf?, lastIdxOf?_of_not_mem hcs]
    simp [hc]

theorem lastIdxOf?_append_some {a : Char} {v : List Char} {k : Nat}
    (hv : lastIdxOf? a v = some k) :
    ∀ u : List Char, lastIdxOf? a (u ++ v) = some (u.length + k)
  | [] => by simpa using hv
  | c :: cs => by
    have ih := lastIdxOf?_append_some hv cs
    simp only [List.cons_append, lastIdxOf?, List.append_eq, ih, List.length_cons]
    congr 1
    omega

theorem lastIdxOf?_append_none {a : Char} {v : List Char}
    (hv : lastIdxOf? a v = none) :
    ∀ u : List Char, lastIdxOf? a (u ++ v) = lastIdxOf? a u
  | [] => by simpa using hv
  | c :: cs => by
    have ih := lastIdxOf?_append_none hv cs
    simp only [List.cons_append, lastIdxOf?, List.append_eq, ih]

theorem lastIdxOf?_isSome_of_mem {a : Char} :
    ∀ {l : List Char}, a ∈ l → ∃ k, lastIdxOf? a l = some k ∧ k < l.length := by
  intro l
  induction l with
  | nil => intro h; exact absurd h (List.not_mem_nil a)
  | cons c cs ih =>
    intro h
    by_cases hmem : a ∈ cs
    · obtain ⟨k, hk, hlt⟩ := ih hmem
      exact ⟨k + 1, by simp [lastIdxOf?, hk], by simpa using Nat.succ_lt_succ hlt⟩
    · have hc : c = a := by
        rcases List.mem_cons.mp h with h1 | h1
        · exact h1.symm
        · exact absurd h1 hmem
      refine ⟨0, ?_, by simp⟩
      simp [lastIdxOf?, lastIdxOf?_of_not_mem hmem, hc]

/-- The last index of the separator in `u ++ a :: v` when `a` occurs
nowhere to its right. -/
theorem lastIdxOf?_sep (a : Char) (u v : List Char) (hv : a ∉ v) :
    lastIdxOf? a (u ++ a :: v) = some u.length := by
  have h0 : lastIdxOf? a (a :: v) = some 0 := by
    simp [lastIdxOf?, lastIdxOf?_of_not_mem hv]
  simpa using lastIdxOf?_append_some h0 u

theorem replaceFirst_append_of_not_mem {a : Char} :
    ∀ {u : List Char} (v : List Char) (b : Char), a ∉ u →
      replaceFirst (u ++ a :: v) a b = u ++ b :: v
  | [], v, b, _ => by simp [replaceFirst]
  | c :: cs, v, b, h => by
    have hc : c ≠ a := fun hh => h (by simp [hh])
    simp only [List.cons_append, replaceFirst, List.append_eq, if_neg hc]
    rw [replaceFirst_append_of_not_mem v b (fun hh => h (by simp [hh]))]

theorem afterLast_sep (a : Char) (u v : List Char) (hv : ∀ c ∈ v, c ≠ a) :
    afterLast a (u ++ a :: v) = v := by
  unfold afterLast
  rw [List.reverse_append, List.reverse_cons]
  have h1 : ((v.reverse ++ [a]) ++ u.reverse).takeWhile (fun c => c ≠ a) = v.reverse := by
    rw [List.append_assoc]
    exact (takeWhile_all_cons_not (p := fun c => decide (c ≠ a))
      (a := v.reverse) (b := a) (r := u.reverse)
      (fun c hc => by simpa using hv c (List.mem_reverse.mp hc)) (by simp)).1
  rw [h1, List.reverse_reverse]

theorem dropWhile_of_all (p : Char → Bool) :
    ∀ {l : List Char}, (∀ c ∈ l, p c = true) → l.dropWhile p = []
  | [], _ => rfl
  | c :: cs, h => by
    simp only [List.dropWhile, h c (by simp)]
    exact dropWhile_of_all p (fun x hx => h x (by simp [hx]))

/-- `parseFloat` on an all-digit string. -/
theorem parseFloatQ_digits {A : List Char} (hA : ∀ c ∈ A, isDigit09 c = true) :
    parseFloatQ A = if A.isEmpty then none else some ((digitsToNat A : ℚ)) := by
  unfold parseFloatQ
  rw [takeWhile_of_all hA, dropWhile_of_all _ hA]

/-- `parseFloat` on `digits ++ '.' ++ digits`. -/
theorem parseFloatQ_split {A ds : List Char} (hA : ∀ c ∈ A, isDigit09 c = true)
    (hds : ∀ c ∈ ds, isDigit09 c = true) :
    parseFloatQ (A ++ '.' :: ds) =
      if A.isEmpty && ds.isEmpty then none else some (decValue A ds) := by
  unfold parseFloatQ
  obtain ⟨ht, hd⟩ := takeWhile_all_cons_not (a := A) (b := '.') (r := ds) hA (by decide)
  rw [ht, hd]
  dsimp only []
  rw [if_pos rfl, takeWhile_of_all hds]

/-! ### Branch-selection lemmas for `parseNorwegianCurrency`

One lemma per branch of the separator disambiguation, for inputs that the
initial `trim` leaves unchanged. -/

theorem pnc_both_comma_branch {t : List Char} (hne : t.isEmpty = false)
    (htrim : trimWS t = t)
    (hcomma : t.contains ',' = true) (hdot : t.contains '.' = true)
    (hgt : lastIdxOf ',' t > lastIdxOf '.' t) :
    parseNorwegianCurrency t =
      parseFloatQ (stripToNum (replaceFirst (t.filter (fun c => c ≠ '.')) ',' '.')) := by
  unfold parseNorwegianCurrency
  rw [if_neg (by simp [hne])]
  dsimp only []
  rw [htrim, hcomma, hdot]
  rw [if_pos (by simp), if_pos hgt]

theorem pnc_both_dot_branch {t : List Char} (hne : t.isEmpty = false)
    (htrim : trimWS t = t)
    (hcomma : t.contains ',' = true) (hdot : t.contains '.' = true)
    (hgt : ¬ lastIdxOf ',' t > lastIdxOf '.' t) :
    parseNorwegianCurrency t =
      parseFloatQ (stripToNum (t.filter (fun c => c ≠ ','))) := by
  unfold parseNorwegianCurrency
  rw [if_neg (by simp [hne])]
  dsimp only []
  rw [htrim, hcomma, hdot]
  rw [if_pos (by simp), if_neg hgt]

theorem pnc_comma_only_dec {t : List Char} (hne : t.isEmpty = false)
    (htrim : trimWS t = t)
    (hcomma : t.contains ',' = true) (hdot : t.contains '.' = false)
    (hcond : ((afterLast ',' t).length == 2 && (afterLast ',' t).all isDigit09) = true) :
    parseNorwegianCurrency t = parseFloatQ (stripToNum (replaceFirst t ',' '.')) := by
  unfold parseNorwegianCurrency
  rw [if_neg (by simp [hne])]
  dsimp only []
  rw [htrim, hcomma, hdot]
  rw [if_neg (by simp), if_pos (by simp), if_pos hcond]

theorem pnc_comma_only_thou {t : List Char} (hne : t.isEmpty = false)
    (htrim : trimWS t = t)
    (hcomma : t.contains ',' = true) (hdot : t.contains '.' = false)
    (hcond : ((afterLast ',' t).length == 2 && (afterLast ',' t).all isDigit09) = false) :
    parseNorwegianCurrency t = parseFloatQ (stripToNum (t.filter (fun c => c ≠ ','))) := by
  unfold parseNorwegianCurrency
  rw [if_neg (by simp [hne])]
  dsimp only []
  rw [htrim, hcomma, hdot]
  rw [if_neg (by simp), if_pos (by simp), if_neg (by simp [hcond])]

theorem pnc_dot_only_dec {t : List Char} (hne : t.isEmpty = false)
    (htrim : trimWS t = t)
    (hcomma : t.contains ',' = false) (hdot : t.contains '.' = true)
    (hcond : ((afterLast '.' t).length == 2 && (afterLast '.' t).all isDigit09) = true) :
    parseNorwegianCurrency t = parseFloatQ (stripToNum t) := by
  unfold parseNorwegianCurrency
  rw [if_neg (by simp [hne])]
  dsimp only []
  rw [htrim, hcomma, hdot]
  rw [if_neg (by simp), if_neg (by simp), if_pos (by simp), if_pos hcond]

theorem pnc_dot_only_thou {t : List Char} (hne : t.isEmpty = false)
    (htrim : trimWS t = t)
    (hcomma : t.contains ',' = false) (hdot : t.contains '.' = true)
    (hcond : ((afterLast '.' t).length == 2 && (afterLast '.' t).all isDigit09) = false) :
    parseNorwegianCurrency t = parseFloatQ (stripToNum (t.filter (fun c => c ≠ '.'))) := by
  unfold parseNorwegianCurrency
  rw [if_neg (by simp [hne])]
  dsimp only []
  rw [htrim, hcomma, hdot]
  rw [if_neg (by simp), if_neg (by simp), if_pos (by simp), if_neg (by simp [hcond])]

theorem contains_eq_false_of_not_mem {a : Char} {l : List Char} (h : a ∉ l) :
    l.contains a = false := by
  cases hc : l.contains a
  · rfl
  · exact absurd (List.mem_of_elem_eq_true hc) h

theorem isEmpty_false_of_ne_nil {l : List Char} (h : l ≠ []) : l.isEmpty = false := by
  cases l
  · exact absurd rfl h
  · rfl

/-! ### Evaluation of `parseNorwegianCurrency` on schematic tokens -/

/-- Both separators present, the comma later and unique: all dots are
dropped as grouping marks and the comma becomes the decimal point. -/
theorem pnc_both_comma_decimal {u ds : List Char}
    (hud : '.' ∈ u) (hunc : ',' ∉ u)
    (hu : ∀ c ∈ u, isDigit09 c = true ∨ c = '.')
    (hds : ∀ c ∈ ds, isDigit09 c = true) (hne : ds ≠ []) :
    parseNorwegianCurrency (u ++ ',' :: ds) = some (decValue (u.filter isDigit09) ds) := by
  have hdsnc : ',' ∉ ds := fun h => isDigit09_ne_comma (hds ',' h) rfl
  have hdsnd : '.' ∉ ds := fun h => isDigit09_ne_dot (hds '.' h) rfl
  have htne : (u ++ ',' :: ds).isEmpty = false := by cases u <;> rfl
  have hnws : ∀ c ∈ u ++ ',' :: ds, isJsWs c = false := by
    intro c hc
    rcases List.mem_append.mp hc with h1 | h1
    · rcases hu c h1 with hd | hd
      · exact isDigit09_not_ws hd
      · subst hd; rfl
    · rcases List.mem_cons.mp h1 with h2 | h2
      · subst h2; rfl
      · exact isDigit09_not_ws (hds c h2)
  have hcomma : (u ++ ',' :: ds).contains ',' = true :=
    List.elem_eq_true_of_mem (by simp)
  have hdot : (u ++ ',' :: ds).contains '.' = true :=
    List.elem_eq_true_of_mem (List.mem_append_left _ hud)
  obtain ⟨k, hldk, hklt⟩ := lastIdxOf?_isSome_of_mem hud
  have hgt : lastIdxOf ',' (u ++ ',' :: ds) > lastIdxOf '.' (u ++ ',' :: ds) := by
    unfold lastIdxOf
    rw [lastIdxOf?_sep ',' u ds hdsnc,
      lastIdxOf?_append_none (lastIdxOf?_of_not_mem (by simp [hdsnd])) u, hldk]
    dsimp only []
    exact_mod_cast hklt
  rw [pnc_both_comma_branch htne (trimWS_eq_self hnws) hcomma hdot hgt]
  have hfilter : (u ++ ',' :: ds).filter (fun c => c ≠ '.') =
      (u.filter (fun c => c ≠ '.')) ++ ',' :: ds := by
    rw [List.filter_append]
    congr 1
    refine List.filter_eq_self.mpr ?_
    intro c hc
    rcases List.mem_cons.mp hc with h2 | h2
    · subst h2; rfl
    · simpa using isDigit09_ne_dot (hds c h2)
  have hu' : ∀ c ∈ u.filter (fun c => c ≠ '.'), isDigit09 c = true := by
    intro c hc
    obtain ⟨hcu, hcne⟩ := List.mem_filter.mp hc
    rcases hu c hcu with hd | hd
    · exact hd
    · subst hd; simp at hcne
  have hrepl : replaceFirst ((u.filter (fun c => c ≠ '.')) ++ ',' :: ds) ',' '.' =
      (u.filter (fun c => c ≠ '.')) ++ '.' :: ds :=
    replaceFirst_append_of_not_mem _ _
      (fun hm => hunc (List.mem_filter.mp hm).1)
  have hstrip : stripToNum ((u.filter (fun c => c ≠ '.')) ++ '.' :: ds) =
      (u.filter (fun c => c ≠ '.')) ++ '.' :: ds := by
    refine List.filter_eq_self.mpr ?_
    intro c hc
    rcases List.mem_append.mp hc with h1 | h1
    · simp [hu' c h1]
    · rcases List.mem_cons.mp h1 with h2 | h2
      · subst h2; rfl
      · simp [hds c h2]
  rw [hfilter, hrepl, hstrip, parseFloatQ_split hu' hds,
    if_neg (by simp [isEmpty_false_of_ne_nil hne]),
    List.filter_congr (fun c hc => ?_)]
  rcases hu c hc with hd | hd
  · simp [hd, isDigit09_ne_dot hd]
  · subst hd; decide

/-- Both separators present, the dot later and unique: all commas are
dropped as grouping marks and the dot is the decimal point. -/
theorem pnc_both_dot_decimal {v ds : List Char}
    (hvc : ',' ∈ v) (hvnd : '.' ∉ v)
    (hv : ∀ c ∈ v, isDigit09 c = true ∨ c = ',')
    (hds : ∀ c ∈ ds, isDigit09 c = true) (hne : ds ≠ []) :
    parseNorwegianCurrency (v ++ '.' :: ds) = some (decValue (v.filter isDigit09) ds) := by
  have hdsnc : ',' ∉ ds := fun h => isDigit09_ne_comma (hds ',' h) rfl
  have hdsnd : '.' ∉ ds := fun h => isDigit09_ne_dot (hds '.' h) rfl
  have htne : (v ++ '.' :: ds).isEmpty = false := by cases v <;> rfl
  have hnws : ∀ c ∈ v ++ '.' :: ds, isJsWs c = false := by
    intro c hc
    rcases List.mem_append.mp hc with h1 | h1
    · rcases hv c h1 with hd | hd
      · exact isDigit09_not_ws hd
      · subst hd; rfl
    · rcases List.mem_cons.mp h1 with h2 | h2
      · subst h2; rfl
      · exact isDigit09_not_ws (hds c h2)
  have hcomma : (v ++ '.' :: ds).contains ',' = true :=
    List.elem_eq_true_of_mem (List.mem_append_left _ hvc)
  have hdot : (v ++ '.' :: ds).contains '.' = true :=
    List.elem_eq_true_of_mem (by simp)
  obtain ⟨k, hlck, hklt⟩ := lastIdxOf?_isSome_of_mem hvc
  have hgt : ¬ lastIdxOf ',' (v ++ '.' :: ds) > lastIdxOf '.' (v ++ '.' :: ds) := by
    unfold lastIdxOf
    rw [lastIdxOf?_sep '.' v ds hdsnd,
      lastIdxOf?_append_none (lastIdxOf?_of_not_mem (by simp [hdsnc])) v, hlck]
    dsimp only []
    simp only [not_lt]
    exact_mod_cast Nat.le_of_lt hklt
  rw [pnc_both_dot_branch htne (trimWS_eq_self hnws) hcomma hdot hgt]
  have hfilter : (v ++ '.' :: ds).filter (fun c => c ≠ ',') =
      (v.filter (fun c => c ≠ ',')) ++ '.' :: ds := by
    rw [List.filter_append]
    congr 1
    refine List.filter_eq_self.mpr ?_
    intro c hc
    rcases List.mem_cons.mp hc with h2 | h2
    · subst h2; rfl
    · simpa using isDigit09_ne_comma (hds c h2)
  have hv' : ∀ c ∈ v.filter (fun c => c ≠ ','), isDigit09 c = true := by
    intro c hc
    obtain ⟨hcv, hcne⟩ := List.mem_filter.mp hc
    rcases hv c hcv with hd | hd
    · exact hd
    · subst hd; simp at hcne
  have hstrip : stripToNum ((v.filter (fun c => c ≠ ',')) ++ '.' :: ds) =
      (v.filter (fun c => c ≠ ',')) ++ '.' :: ds := by
    refine List.filter_eq_self.mpr ?_
    intro c hc
    rcases List.mem_append.mp hc with h1 | h1
    · simp [hv' c h1]
    · rcases List.mem_cons.mp h1 with h2 | h2
      · subst h2; rfl
      · simp [hds c h2]
  rw [hfilter, hstrip, parseFloatQ_split hv' hds,
    if_neg (by simp [isEmpty_false_of_ne_nil hne]),
    List.filter_congr (fun c hc => ?_)]
  rcases hv c hc with hd | hd
  · simp [hd, isDigit09_ne_comma hd]
  · subst hd; decide

theorem strip_keep_eq_digit {c : Char} (h : c ≠ '.') :
    (isDigit09 c || c == '.') = isDigit09 c := by
  cases hd : isDigit09 c
  · simp [h]
  · simp

/-- On a dot-free string the final strip keeps exactly the digits. -/
theorem stripToNum_of_no_dot {l : List Char} (h : '.' ∉ l) :
    stripToNum l = l.filter isDigit09 :=
  List.filter_congr (fun _ hc => strip_keep_eq_digit (fun he => h (he ▸ hc)))

/-- Removing all dots and then stripping keeps exactly the digits. -/
theorem stripToNum_filter_ne_dot (t : List Char) :
    stripToNum (t.filter (fun c => c ≠ '.')) = t.filter isDigit09 := by
  unfold stripToNum
  rw [List.filter_filter]
  refine List.filter_congr (fun c _ => ?_)
  by_cases hd : c = '.'
  · subst hd
    decide
  · rw [strip_keep_eq_digit hd]
    simp [hd]

/-- Removing all commas and then stripping keeps exactly the digits,
provided the string has no dots. -/
theorem stripToNum_filter_ne_comma {t : List Char} (hnd : '.' ∉ t) :
    stripToNum (t.filter (fun c => c ≠ ',')) = t.filter isDigit09 := by
  unfold stripToNum
  rw [List.filter_filter]
  refine List.filter_congr (fun c hc => ?_)
  rw [strip_keep_eq_digit (fun he => hnd (he ▸ hc))]
  by_cases hcm : c = ','
  · subst hcm
    decide
  · simp [hcm]

/-- `parseFloat` on `digits ++ '.' ++ anything`: the fractional digits
are the digit run after the dot (parsing stops at a second dot). -/
theorem parseFloatQ_split_gen {A : List Char} (B : List Char)
    (hA : ∀ c ∈ A, isDigit09 c = true) :
    parseFloatQ (A ++ '.' :: B) =
      if A.isEmpty && (B.takeWhile isDigit09).isEmpty then none
      else some (decValue A (B.takeWhile isDigit09)) := by
  unfold parseFloatQ
  obtain ⟨ht, hd⟩ := takeWhile_all_cons_not (a := A) (b := '.') (r := B) hA (by decide)
  rw [ht, hd]
  dsimp only []
  rw [if_pos rfl]

/-! ### The four separator branches on arbitrary trimmed tokens -/

/-- Commas only, two digits after the last comma: with `a` the part
before the first comma and `b` the part after it, the first comma
becomes the decimal point, the remaining commas and every other
non-digit character are stripped, so the integer part is the digits of
`a` and the fractional digits are the digits of `b`. -/
theorem pnc_comma_dec_gen {a b : List Char}
    (hfc : ',' ∉ a) (hnd : '.' ∉ a ++ ',' :: b)
    (htrim : trimWS (a ++ ',' :: b) = a ++ ',' :: b)
    (hcond : ((afterLast ',' (a ++ ',' :: b)).length == 2 &&
      (afterLast ',' (a ++ ',' :: b)).all isDigit09) = true) :
    parseNorwegianCurrency (a ++ ',' :: b) =
      if (a.filter isDigit09).isEmpty && (b.filter isDigit09).isEmpty then none
      else some (decValue (a.filter isDigit09) (b.filter isDigit09)) := by
  have htne : (a ++ ',' :: b).isEmpty = false := by cases a <;> rfl
  have hcomma : (a ++ ',' :: b).contains ',' = true :=
    List.elem_eq_true_of_mem (by simp)
  have hdot : (a ++ ',' :: b).contains '.' = false := contains_eq_false_of_not_mem hnd
  rw [pnc_comma_only_dec htne htrim hcomma hdot hcond,
    replaceFirst_append_of_not_mem _ _ hfc]
  have hnda : '.' ∉ a := fun h => hnd (List.mem_append_left _ h)
  have hndb : '.' ∉ b := fun h => hnd (List.mem_append_right _ (by simp [h]))
  have hstrip : stripToNum (a ++ '.' :: b) =
      (a.filter isDigit09) ++ '.' :: (b.filter isDigit09) := by
    unfold stripToNum
    rw [List.filter_append, List.filter_cons_of_pos (by decide)]
    rw [show List.filter (fun c => isDigit09 c || c == '.') a = stripToNum a from rfl,
      show List.filter (fun c => isDigit09 c || c == '.') b = stripToNum b from rfl,
      stripToNum_of_no_dot hnda, stripToNum_of_no_dot hndb]
  rw [hstrip, parseFloatQ_split (fun c hc => (List.mem_filter.mp hc).2)
    (fun c hc => (List.mem_filter.mp hc).2)]

/-- Commas only, not exactly two digits after the last comma: all commas
and every other non-digit character are stripped; the token is read as an
integer (no decimal point is introduced). -/
theorem pnc_comma_thou_gen {t : List Char}
    (htrim : trimWS t = t) (hc : ',' ∈ t) (hnd : '.' ∉ t)
    (hcond : ((afterLast ',' t).length == 2 && (afterLast ',' t).all isDigit09) = false) :
    parseNorwegianCurrency t =
      if (t.filter isDigit09).isEmpty then none
      else some ((digitsToNat (t.filter isDigit09) : ℚ)) := by
  have htne : t.isEmpty = false :=
    isEmpty_false_of_ne_nil (fun h => by subst h; cases hc)
  have hcomma : t.contains ',' = true := List.elem_eq_true_of_mem hc
  have hdot : t.contains '.' = false := contains_eq_false_of_not_mem hnd
  rw [pnc_comma_only_thou htne htrim hcomma hdot hcond,
    stripToNum_filter_ne_comma hnd,
    parseFloatQ_digits (fun c hcm => (List.mem_filter.mp hcm).2)]

/-- Dots only, two digits after the last dot: the token is kept as-is;
after stripping every non-digit non-dot character, the first dot is the
decimal point and parsing stops at any second dot, so the fractional
digits are the digit run directly after the first dot. -/
theorem pnc_dot_dec_gen {a b : List Char}
    (hfd : '.' ∉ a) (hnc : ',' ∉ a ++ '.' :: b)
    (htrim : trimWS (a ++ '.' :: b) = a ++ '.' :: b)
    (hcond : ((afterLast '.' (a ++ '.' :: b)).length == 2 &&
      (afterLast '.' (a ++ '.' :: b)).all isDigit09) = true) :
    parseNorwegianCurrency (a ++ '.' :: b) =
      if (a.filter isDigit09).isEmpty && ((stripToNum b).takeWhile isDigit09).isEmpty
      then none
      else some (decValue (a.filter isDigit09) ((stripToNum b).takeWhile isDigit09)) := by
  have htne : (a ++ '.' :: b).isEmpty = false := by cases a <;> rfl
  have hdotm : (a ++ '.' :: b).contains '.' = true :=
    List.elem_eq_true_of_mem (by simp)
  have hcommam : (a ++ '.' :: b).contains ',' = false := contains_eq_false_of_not_mem hnc
  rw [pnc_dot_only_dec htne htrim hcommam hdotm hcond]
  have hstrip : stripToNum (a ++ '.' :: b) =
      (a.filter isDigit09) ++ '.' :: stripToNum b := by
    unfold stripToNum
    rw [List.filter_append, List.filter_cons_of_pos (by decide)]
    rw [show List.filter (fun c => isDigit09 c || c == '.') a = stripToNum a from rfl,
      stripToNum_of_no_dot hfd]
  rw [hstrip, parseFloatQ_split_gen (stripToNum b)
    (fun c hc => (List.mem_filter.mp hc).2)]

/-- Dots only, not exactly two digits after the last dot: all dots and
every other non-digit character are stripped; the token is read as an
integer. -/
theorem pnc_dot_thou_gen {t : List Char}
    (htrim : trimWS t = t) (hd : '.' ∈ t) (hnc : ',' ∉ t)
    (hcond : ((afterLast '.' t).length == 2 && (afterLast '.' t).all isDigit09) = false) :
    parseNorwegianCurrency t =
      if (t.filter isDigit09).isEmpty then none
      else some ((digitsToNat (t.filter isDigit09) : ℚ)) := by
  have htne : t.isEmpty = false :=
    isEmpty_false_of_ne_nil (fun h => by subst h; cases hd)
  have hdotm : t.contains '.' = true := List.elem_eq_true_of_mem hd
  have hcommam : t.contains ',' = false := contains_eq_false_of_not_mem hnc
  rw [pnc_dot_only_thou htne htrim hcommam hdotm hcond,
    stripToNum_filter_ne_dot,
    parseFloatQ_digits (fun c hcm => (List.mem_filter.mp hcm).2)]

/-! ## Claim theorems for the `normalizeAmount` battery -/

/-- C1: the disambiguation battery of the spec: `normalizeAmount`
(implemented as `parseNorwegianCurrency`) maps `"1.234,56"` and
`"1,234.56"` to `1234.56`, `"1.234"` and `"1,234"` to `1234`, and
`"123,45"` and `"123.45"` to `123.45`. -/
theorem C1_normalize_battery :
    parseNorwegianCurrency "1.234,56".toList = some ((123456 : ℚ) / 100) ∧
    parseNorwegianCurrency "1,234.56".toList = some ((123456 : ℚ) / 100) ∧
    parseNorwegianCurrency "1.234".toList = some (1234 : ℚ) ∧
    parseNorwegianCurrency "1,234".toList = some (1234 : ℚ) ∧
    parseNorwegianCurrency "123,45".toList = some ((12345 : ℚ) / 100) ∧
    parseNorwegianCurrency "123.45".toList = some ((12345 : ℚ) / 100) := by
  refine ⟨?_, ?_, ?_, ?_, ?_, ?_⟩
  · rw [show parseNorwegianCurrency "1.234,56".toList = some (mkRat 123456 100) from by
      decide, Rat.mkRat_eq_div]
    norm_num
  · rw [show parseNorwegianCurrency "1,234.56".toList = some (mkRat 123456 100) from by
      decide, Rat.mkRat_eq_div]
    norm_num
  · decide
  · decide
  · rw [show parseNorwegianCurrency "123,45".toList = some (mkRat 12345 100) from by
      decide, Rat.mkRat_eq_div]
    norm_num
  · rw [show parseNorwegianCurrency "123.45".toList = some (mkRat 12345 100) from by
      decide, Rat.mkRat_eq_div]
    norm_num

/-- C3: on a trimmed token containing both separators, the one whose last
occurrence comes later (here occurring once) is the decimal point, and
the earlier separator together with all its repeats is removed: for every
token `u ++ ',' ++ ds` whose prefix `u` is digits with dots (at least
one) and `ds` a nonempty digit suffix, the dots are stripped and the
comma is the decimal point; symmetrically for `v ++ '.' ++ ds` with `v`
digits and commas. -/
theorem C3_both_separators_later_wins :
    (∀ (u ds : List Char), '.' ∈ u → ',' ∉ u →
      (∀ c ∈ u, isDigit09 c = true ∨ c = '.') →
      (∀ c ∈ ds, isDigit09 c = true) → ds ≠ [] →
      parseNorwegianCurrency (u ++ ',' :: ds) =
        some ((digitsToNat (u.filter isDigit09) : ℚ) +
          (digitsToNat ds : ℚ) / (10 : ℚ) ^ ds.length)) ∧
    (∀ (v ds : List Char), ',' ∈ v → '.' ∉ v →
      (∀ c ∈ v, isDigit09 c = true ∨ c = ',') →
      (∀ c ∈ ds, isDigit09 c = true) → ds ≠ [] →
      parseNorwegianCurrency (v ++ '.' :: ds) =
        some ((digitsToNat (v.filter isDigit09) : ℚ) +
          (digitsToNat ds : ℚ) / (10 : ℚ) ^ ds.length)) := by
  constructor
  · intro u ds h1 h2 h3 h4 h5
    rw [pnc_both_comma_decimal h1 h2 h3 h4 h5, decValue_eq]
  · intro v ds h1 h2 h3 h4 h5
    rw [pnc_both_dot_decimal h1 h2 h3 h4 h5, decValue_eq]

/-- Witness for C3 at the spec's own examples `"1.234,56"` and
`"1,234.56"`. -/
theorem C3_witness :
    parseNorwegianCurrency ("1.234".toList ++ ',' :: "56".toList) =
      some ((digitsToNat ("1.234".toList.filter isDigit09) : ℚ) +
        (digitsToNat "56".toList : ℚ) / (10 : ℚ) ^ "56".toList.length) ∧
    parseNorwegianCurrency ("1,234".toList ++ '.' :: "56".toList) =
      some ((digitsToNat ("1,234".toList.filter isDigit09) : ℚ) +
        (digitsToNat "56".toList : ℚ) / (10 : ℚ) ^ "56".toList.length) :=
  ⟨C3_both_separators_later_wins.1 "1.234".toList "56".toList
      (by decide) (by decide) (by decide) (by decide) (by decide),
    C3_both_separators_later_wins.2 "1,234".toList "56".toList
      (by decide) (by decide) (by decide) (by decide) (by decide)⟩

/-- C2 fails as stated: `"1,2,34"` has commas only and exactly two digits
after its last comma, but the code replaces only the *first* comma by the
decimal point (stripping the others), so the result is `1.234` — and no
integer plus `34/100` equals `1.234`, i.e. the result's fractional part
is not the two digits after the last comma. -/
theorem C2_counterexample :
    parseNorwegianCurrency "1,2,34".toList = some (mkRat 1234 1000) ∧
    (afterLast ',' (trimWS "1,2,34".toList)).length = 2 ∧
    (∀ c ∈ afterLast ',' (trimWS "1,2,34".toList), isDigit09 c = true) ∧
    ∀ n : ℤ, (n : ℚ) + (34 : ℚ) / 100 ≠ mkRat 1234 1000 := by
  refine ⟨by decide, by decide, by decide, ?_⟩
  intro n h
  rw [Rat.mkRat_eq_div] at h
  norm_num at h
  have h4 : ((500 * n : ℤ) : ℚ) = ((447 : ℤ) : ℚ) := by push_cast; linarith
  have h6 : (500 * n : ℤ) = 447 := by exact_mod_cast h4
  omega

/-- C2 (amended): for every trimmed token containing commas but no dots,
writing it as `a ++ ',' ++ b` with the first comma displayed: if exactly
two digits follow the last comma, the first comma becomes the decimal
point and the remaining commas, along with every other non-digit
character, are stripped — the integer part is the digits of `a` and the
fractional digits are the digits of `b` (exactly the two trailing digits
when the comma is unique); otherwise all commas are removed, every other
non-digit character is stripped, and no decimal point is introduced.
Symmetrically for trimmed tokens containing dots but no commas: with two
digits after the last dot the token is kept as-is and, after stripping,
is parsed with the first dot as the decimal point (parsing stops at any
second dot); otherwise all dots are stripped and the token is read as an
integer. -/
theorem C2_first_separator_becomes_decimal :
    (∀ a b : List Char, ',' ∉ a → '.' ∉ a ++ ',' :: b →
      trimWS (a ++ ',' :: b) = a ++ ',' :: b →
      ((afterLast ',' (a ++ ',' :: b)).length == 2 &&
        (afterLast ',' (a ++ ',' :: b)).all isDigit09) = true →
      parseNorwegianCurrency (a ++ ',' :: b) =
        if (a.filter isDigit09).isEmpty && (b.filter isDigit09).isEmpty then none
        else some (decValue (a.filter isDigit09) (b.filter isDigit09))) ∧
    (∀ t : List Char, trimWS t = t → ',' ∈ t → '.' ∉ t →
      ((afterLast ',' t).length == 2 && (afterLast ',' t).all isDigit09) = false →
      parseNorwegianCurrency t =
        if (t.filter isDigit09).isEmpty then none
        else some ((digitsToNat (t.filter isDigit09) : ℚ))) ∧
    (∀ a b : List Char, '.' ∉ a → ',' ∉ a ++ '.' :: b →
      trimWS (a ++ '.' :: b) = a ++ '.' :: b →
      ((afterLast '.' (a ++ '.' :: b)).length == 2 &&
        (afterLast '.' (a ++ '.' :: b)).all isDigit09) = true →
      parseNorwegianCurrency (a ++ '.' :: b) =
        if (a.filter isDigit09).isEmpty && ((stripToNum b).takeWhile isDigit09).isEmpty
        then none
        else some (decValue (a.filter isDigit09) ((stripToNum b).takeWhile isDigit09))) ∧
    (∀ t : List Char, trimWS t = t → '.' ∈ t → ',' ∉ t →
      ((afterLast '.' t).length == 2 && (afterLast '.' t).all isDigit09) = false →
      parseNorwegianCurrency t =
        if (t.filter isDigit09).isEmpty then none
        else some ((digitsToNat (t.filter isDigit09) : ℚ))) := by
  refine ⟨?_, ?_, ?_, ?_⟩
  · intro a b h1 h2 h3 h4
    exact pnc_comma_dec_gen h1 h2 h3 h4
  · intro t h1 h2 h3 h4
    exact pnc_comma_thou_gen h1 h2 h3 h4
  · intro a b h1 h2 h3 h4
    exact pnc_dot_dec_gen h1 h2 h3 h4
  · intro t h1 h2 h3 h4
    exact pnc_dot_thou_gen h1 h2 h3 h4

/-- Witness for the amended C2 at `"1,2,34"` (multi-comma, the
counterexample token itself), the noisy `"kr1,234"`, the multi-dot
`"1.2.34"` (parsing stops at the second dot), and `"kr1.234"`. -/
theorem C2_witness :
    parseNorwegianCurrency ("1".toList ++ ',' :: "2,34".toList) =
      (if ("1".toList.filter isDigit09).isEmpty &&
          ("2,34".toList.filter isDigit09).isEmpty then none
       else some (decValue ("1".toList.filter isDigit09)
         ("2,34".toList.filter isDigit09))) ∧
    parseNorwegianCurrency "kr1,234".toList =
      (if ("kr1,234".toList.filter isDigit09).isEmpty then none
       else some ((digitsToNat ("kr1,234".toList.filter isDigit09) : ℚ))) ∧
    parseNorwegianCurrency ("1".toList ++ '.' :: "2.34".toList) =
      (if ("1".toList.filter isDigit09).isEmpty &&
          ((stripToNum "2.34".toList).takeWhile isDigit09).isEmpty then none
       else some (decValue ("1".toList.filter isDigit09)
         ((stripToNum "2.34".toList).takeWhile isDigit09))) ∧
    parseNorwegianCurrency "kr1.234".toList =
      (if ("kr1.234".toList.filter isDigit09).isEmpty then none
       else some ((digitsToNat ("kr1.234".toList.filter isDigit09) : ℚ))) :=
  ⟨C2_first_separator_becomes_decimal.1 "1".toList "2,34".toList
      (by decide) (by decide) (by decide) (by decide),
    C2_first_separator_becomes_decimal.2.1 "kr1,234".toList
      (by decide) (by decide) (by decide) (by decide),
    C2_first_separator_becomes_decimal.2.2.1 "1".toList "2.34".toList
      (by decide) (by decide) (by decide) (by decide),
    C2_first_separator_becomes_decimal.2.2.2 "kr1.234".toList
      (by decide) (by decide) (by decide) (by decide)⟩

/-! ## Total selection: the source's folds compute the spec's maxima -/

theorem foldl_max_init_le : ∀ (l : List ℚ) (b : ℚ), b ≤ l.foldl max b
  | [], _ => le_refl _
  | q :: rest, b => by
    rw [List.foldl_cons]
    exact le_trans (le_max_left b q) (foldl_max_init_le rest (max b q))

theorem foldl_max_mem : ∀ (l : List ℚ) (b : ℚ), l.foldl max b = b ∨ l.foldl max b ∈ l
  | [], _ => Or.inl rfl
  | q :: rest, b => by
    rw [List.foldl_cons]
    rcases foldl_max_mem rest (max b q) with h | h
    · rcases max_choice b q with h2 | h2
      · exact Or.inl (by rw [h, h2])
      · exact Or.inr (by rw [h, h2]; exact List.mem_cons_self q rest)
    · exact Or.inr (List.mem_cons_of_mem q h)

theorem listMax?_mem {l : List ℚ} {v : ℚ} (h : listMax? l = some v) : v ∈ l := by
  cases l with
  | nil => cases h
  | cons q rest =>
    unfold listMax? at h
    injection h with h
    subst h
    rcases foldl_max_mem rest q with h2 | h2
    · rw [h2]
      exact List.mem_cons_self q rest
    · exact List.mem_cons_of_mem q h2

theorem qualifyingVals_bounds {cands : List (List Char)} {q : ℚ}
    (h : q ∈ qualifyingVals cands) : 0 < q ∧ q < 1000000 := by
  unfold qualifyingVals at h
  have := (List.mem_filter.mp h).2
  simpa using this

theorem qualifyingVals_cons_some {s : List Char} {q : ℚ} (cands : List (List Char))
    (hp : parseNorwegianCurrency s = some q) :
    qualifyingVals (s :: cands) =
      if 0 < q ∧ q < 1000000 then q :: qualifyingVals cands
      else qualifyingVals cands := by
  unfold qualifyingVals
  rw [List.filterMap_cons, hp]
  by_cases hq : 0 < q ∧ q < 1000000
  · rw [if_pos hq, List.filter_cons_of_pos (by simpa using hq)]
  · rw [if_neg hq, List.filter_cons_of_neg (by simpa using hq)]

theorem qualifyingVals_cons_none {s : List Char} (cands : List (List Char))
    (hp : parseNorwegianCurrency s = none) :
    qualifyingVals (s :: cands) = qualifyingVals cands := by
  unfold qualifyingVals
  rw [List.filterMap_cons, hp]

theorem totalFold_some (l : List (List Char)) :
    ∀ m : ℚ, 0 < m → m < 1000000 →
      totalFold l (some m) = some ((qualifyingVals l).foldl max m) := by
  induction l with
  | nil => intro m _ _; rfl
  | cons s rest ih =>
    intro m h1 h2
    cases hp : parseNorwegianCurrency s with
    | none =>
      simp only [totalFold, hp]
      rw [qualifyingVals_cons_none rest hp, ih m h1 h2]
    | some q =>
      simp only [totalFold, hp, Option.getD_some]
      rw [qualifyingVals_cons_some rest hp]
      by_cases hq : 0 < q ∧ q < 1000000
      · rw [if_pos hq]
        by_cases hgt : q > m
        · rw [if_pos (show (q != 0 && decide (q > m) && decide (q < 1000000)) = true by
            simp [hq.1.ne', hgt, hq.2])]
          rw [ih q hq.1 hq.2, List.foldl_cons, max_eq_right (le_of_lt hgt)]
        · rw [if_neg (show ¬ (q != 0 && decide (q > m) && decide (q < 1000000)) = true by
            simp [hgt])]
          rw [ih m h1 h2, List.foldl_cons, max_eq_left (not_lt.mp hgt)]
      · have hcond : ¬ (q != 0 && decide (q > m) && decide (q < 1000000)) = true := by
          rcases not_and_or.mp hq with h3 | h3
          · have hq0 : ¬ q > m := fun hgt => h3 (lt_trans h1 hgt)
            simp [hq0]
          · simp [h3]
        rw [if_neg hcond, if_neg hq]
        exact ih m h1 h2

theorem totalFold_none (l : List (List Char)) :
    totalFold l none = listMax? (qualifyingVals l) := by
  induction l with
  | nil => rfl
  | cons s rest ih =>
    cases hp : parseNorwegianCurrency s with
    | none =>
      simp only [totalFold, hp]
      rw [qualifyingVals_cons_none rest hp, ih]
    | some q =>
      simp only [totalFold, hp, Option.getD_none]
      rw [qualifyingVals_cons_some rest hp]
      by_cases hq : 0 < q ∧ q < 1000000
      · rw [if_pos (show (q != 0 && decide (q > 0) && decide (q < 1000000)) = true by
          simp [hq.1.ne', hq.1, hq.2])]
        rw [if_pos hq, totalFold_some rest q hq.1 hq.2]
        rfl
      · have hcond : ¬ (q != 0 && decide (q > 0) && decide (q < 1000000)) = true := by
          rcases not_and_or.mp hq with h3 | h3
          · simp [h3]
          · simp [h3]
        rw [if_neg hcond, if_neg hq]
        exact ih

theorem fbFold_eq (l : List (List Char)) :
    ∀ m : ℚ, 0 ≤ m → fbFold l m = (qualifyingVals l).foldl max m := by
  induction l with
  | nil => intro m _; rfl
  | cons s rest ih =>
    intro m hm
    cases hp : parseNorwegianCurrency s with
    | none =>
      simp only [fbFold, hp]
      rw [qualifyingVals_cons_none rest hp, ih m hm]
    | some q =>
      simp only [fbFold, hp]
      rw [qualifyingVals_cons_some rest hp]
      by_cases hq : 0 < q ∧ q < 1000000
      · rw [if_pos hq]
        by_cases hgt : q > m
        · rw [if_pos (show (q != 0 && decide (q > m) && decide (q < 1000000)) = true by
            simp [hq.1.ne', hgt, hq.2])]
          rw [ih q hq.1.le, List.foldl_cons, max_eq_right (le_of_lt hgt)]
        · rw [if_neg (show ¬ (q != 0 && decide (q > m) && decide (q < 1000000)) = true by
            simp [hgt])]
          rw [ih m hm, List.foldl_cons, max_eq_left (not_lt.mp hgt)]
      · have hcond : ¬ (q != 0 && decide (q > m) && decide (q < 1000000)) = true := by
          rcases not_and_or.mp hq with h3 | h3
          · have hq0 : ¬ q > m := fun hgt => h3 (lt_of_le_of_lt hm hgt)
            simp [hq0]
          · simp [h3]
        rw [if_neg hcond, if_neg hq]
        exact ih m hm

/-- The source's two-phase total selection equals the spec's description
(phase-1 maximum, else fallback maximum, else absent). -/
theorem totalSelect_eq_spec (text : List Char) :
    totalSelect text = totalPerSpec text := by
  unfold totalSelect totalPerSpec
  rw [totalFold_none]
  cases hq : listMax? (qualifyingVals (totalCands text)) with
  | some v =>
    obtain ⟨hv0, _⟩ := qualifyingVals_bounds (listMax?_mem hq)
    dsimp only []
    rw [if_pos (show qTruthy (some v) = true by simp [qTruthy, hv0.ne'])]
  | none =>
    dsimp only []
    rw [if_neg (show ¬ qTruthy (none : Option ℚ) = true by simp [qTruthy])]
    rw [fbFold_eq _ 0 le_rfl]
    cases hquals : qualifyingVals (moneyCands text) with
    | nil =>
      simp [listMax?]
    | cons q qs =>
      have hq0 : 0 < q :=
        (qualifyingVals_bounds (by rw [hquals]; exact List.mem_cons_self q qs)).1
      rw [List.foldl_cons, max_eq_right hq0.le]
      have hpos : 0 < qs.foldl max q := lt_of_lt_of_le hq0 (foldl_max_init_le qs q)
      rw [if_pos hpos]
      rfl

/-! ## Claim theorems for the total field -/

/-- C4: the total is selected in two phases with a maximum tie-break:
the maximum keyword-anchored candidate normalizing into `(0, 1000000)`
when one exists, otherwise the maximum such candidate of the unanchored
money-shaped scan, otherwise absent — exactly `totalPerSpec`. -/
theorem C4_total_two_phase_maximum (text : List Char) :
    (extractStructuredFields text).total = totalPerSpec text :=
  totalSelect_eq_spec text

/-- Witness for C4 at a concrete receipt text. -/
theorem C4_witness :
    (extractStructuredFields "Sum 55,00".toList).total = totalPerSpec "Sum 55,00".toList :=
  C4_total_two_phase_maximum "Sum 55,00".toList

/-- C5: a present total always lies strictly between 0 and 1,000,000,
in both the keyword-anchored phase and the fallback. -/
theorem C5_total_range (text : List Char) (t : ℚ)
    (h : (extractStructuredFields text).total = some t) :
    0 < t ∧ t < 1000000 := by
  have h2 : totalSelect text = some t := h
  rw [totalSelect_eq_spec] at h2
  unfold totalPerSpec at h2
  cases hq : listMax? (qualifyingVals (totalCands text)) with
  | some v =>
    rw [hq] at h2
    injection h2 with h2
    subst h2
    exact qualifyingVals_bounds (listMax?_mem hq)
  | none =>
    rw [hq] at h2
    exact qualifyingVals_bounds (listMax?_mem h2)

/-- Witness for C5 at the concrete receipt `"Sum 128,15"`. -/
theorem C5_witness : 0 < mkRat 12815 100 ∧ mkRat 12815 100 < 1000000 :=
  C5_total_range "Sum 128,15".toList (mkRat 12815 100) (by decide)

/-! ## Claim theorems for the VAT field -/

/-- C6: when the highest-priority VAT pattern (the `<base> 25% <vat>`
breakdown triple) matches and its *second* captured number normalizes to
a non-zero value, that value — not the base or the following total — is
returned as `vatAmount`. -/
theorem C6_vat_breakdown_second_capture (text m0 rest0 : List Char) (caps : Caps)
    (g : List Char) (v : ℚ)
    (h0 : searchRE vatP1 text = some (m0, rest0, caps))
    (h1 : getCap 2 caps = some g) (hg : g.isEmpty = false)
    (h2 : parseNorwegianCurrency g = some v) (h3 : v ≠ 0) :
    (extractStructuredFields text).vatAmount = some v := by
  have hsel : vatSel vatP1 text = some g := by
    unfold vatSel
    rw [h0, Option.map_some']
    show some (selCap caps) = some g
    unfold selCap
    rw [h1]
    dsimp only []
    rw [hg]
    rfl
  show vatDetect text = some v
  unfold vatDetect vatCandidates
  rw [hsel]
  simp only [vatLoop]
  rw [h2]
  simp [qTruthy, h3]

/-- Witness for C6 on the spec's noise-robustness triple
`"1599.20 25% 399.80 1999.00"`: `vatAmount` is `399.80`, the second
captured number. -/
theorem C6_witness :
    (extractStructuredFields "1599.20 25% 399.80 1999.00".toList).vatAmount =
      some (mkRat 39980 100) :=
  C6_vat_breakdown_second_capture "1599.20 25% 399.80 1999.00".toList
    "1599.20 25% 399.80".toList " 1999.00".toList
    [(2, "399.80".toList), (1, "1599.20".toList)] "399.80".toList (mkRat 39980 100)
    (by decide) (by decide) (by decide) (by decide) (by decide)

/-- C7 fails as stated: on `"MVA 0,00"` every VAT pattern either fails to
match (patterns 1, 2, 5) or has its selected capture `"0,00"` normalize
to zero (patterns 3 and 4), yet `vatAmount` is a *present* `0`, not
absent: the loop keeps the last assigned falsy parse instead of resetting
it. -/
theorem C7_counterexample :
    vatSel vatP1 "MVA 0,00".toList = none ∧
    vatSel vatP2 "MVA 0,00".toList = none ∧
    (vatSel vatP3 "MVA 0,00".toList).map parseNorwegianCurrency = some (some 0) ∧
    (vatSel vatP4 "MVA 0,00".toList).map parseNorwegianCurrency = some (some 0) ∧
    vatSel vatP5 "MVA 0,00".toList = none ∧
    (extractStructuredFields "MVA 0,00".toList).vatAmount = some 0 := by
  refine ⟨by decide, by decide, by decide, by decide, by decide, by decide⟩

/-- C7 (amended): `vatAmount` is absent whenever *no* VAT pattern matches
the text; when some pattern matches but every selected capture normalizes
to zero or to no value, the field ends up holding the last matching
pattern's parse result — possibly a present zero — rather than being
forced back to absent. -/
theorem C7_absent_when_no_pattern_matches (text : List Char)
    (h1 : vatSel vatP1 text = none) (h2 : vatSel vatP2 text = none)
    (h3 : vatSel vatP3 text = none) (h4 : vatSel vatP4 text = none)
    (h5 : vatSel vatP5 text = none) :
    (extractStructuredFields text).vatAmount = none := by
  show vatDetect text = none
  unfold vatDetect vatCandidates
  rw [h1, h2, h3, h4, h5]
  rfl

/-- Witness for the amended C7 on `"hello"`, which no VAT pattern
matches. -/
theorem C7_witness :
    (extractStructuredFields "hello".toList).vatAmount = none :=
  C7_absent_when_no_pattern_matches "hello".toList
    (by decide) (by decide) (by decide) (by decide) (by decide)

/-! ## Currency detection: matches are case variants of the codes -/

/-- A character matching an upper-case ASCII letter case-insensitively
uppercases back to exactly that letter. -/
theorem upperChar_of_ciEq {p a : Char} (h1 : 65 ≤ p.toNat) (h2 : p.toNat ≤ 90)
    (h : ciEq p a = true) : upperChar a = p := by
  unfold ciEq canonCI at h
  rw [beq_iff_eq] at h
  dsimp only [] at h
  rw [if_neg (show ¬ (97 ≤ p.toNat && p.toNat ≤ 122) = true by simp; omega),
    if_neg (show ¬ p.toNat = 229 by omega), if_neg (show ¬ p.toNat = 248 by omega),
    if_neg (show ¬ p.toNat = 230 by omega)] at h
  unfold upperChar
  dsimp only []
  by_cases ha : (97 ≤ a.toNat && a.toNat ≤ 122) = true
  · rw [if_pos ha] at h
    rw [if_pos ha, show a.toNat - 32 = p.toNat by omega]
    exact Char.ofNat_toNat p
  · rw [if_neg ha] at h
    rw [if_neg ha]
    by_cases h229 : a.toNat = 229
    · rw [if_pos h229] at h
      omega
    · rw [if_neg h229] at h
      rw [if_neg h229]
      by_cases h248 : a.toNat = 248
      · rw [if_pos h248] at h
        omega
      · rw [if_neg h248] at h
        rw [if_neg h248]
        by_cases h230 : a.toNat = 230
        · rw [if_pos h230] at h
          omega
        · rw [if_neg h230] at h
          rw [if_neg h230]
          exact eq_of_toNat_eq h.symm

theorem matchLit_upper : ∀ {w s m r : List Char},
    (∀ c ∈ w, 65 ≤ c.toNat ∧ c.toNat ≤ 90) →
    matchLit w s = some (m, r) → m.map upperChar = w
  | [], s, m, r, _, h => by
    unfold matchLit at h
    injection h with h
    rw [Prod.mk.injEq] at h
    rw [← h.1]
    rfl
  | p :: ps, [], m, r, _, h => by cases h
  | p :: ps, a :: as, m, r, hw, h => by
    unfold matchLit at h
    split at h
    · rename_i hci
      cases hm : matchLit ps as with
      | none => rw [hm] at h; cases h
      | some pr =>
        obtain ⟨m2, r2⟩ := pr
        rw [hm] at h
        dsimp only [] at h
        injection h with h
        rw [Prod.mk.injEq] at h
        rw [← h.1]
        have hp := hw p (by simp)
        simp only [List.map_cons]
        rw [upperChar_of_ciEq hp.1 hp.2 hci,
          matchLit_upper (fun c hc => hw c (by simp [hc])) hm]
    · cases h

theorem currencyAt_upper : ∀ {codes : List (List Char)} {s m : List Char},
    (∀ w ∈ codes, ∀ c ∈ w, 65 ≤ c.toNat ∧ c.toNat ≤ 90) →
    currencyAt codes s = some m → ∃ w ∈ codes, m.map upperChar = w
  | [], s, m, _, h => by cases h
  | w :: ws, s, m, hcodes, h => by
    unfold currencyAt at h
    cases hm : matchLit w s with
    | some pr =>
      obtain ⟨m1, r⟩ := pr
      rw [hm] at h
      dsimp only [] at h
      cases hr : r.head? with
      | some c =>
        rw [hr] at h
        dsimp only [] at h
        split at h
        · obtain ⟨w2, hw2, hu⟩ := currencyAt_upper
            (fun w2 hw2 => hcodes w2 (by simp [hw2])) h
          exact ⟨w2, by simp [hw2], hu⟩
        · injection h with h
          subst h
          exact ⟨w, by simp, matchLit_upper (hcodes w (by simp)) hm⟩
      | none =>
        rw [hr] at h
        dsimp only [] at h
        injection h with h
        subst h
        exact ⟨w, by simp, matchLit_upper (hcodes w (by simp)) hm⟩
    | none =>
      rw [hm] at h
      dsimp only [] at h
      obtain ⟨w2, hw2, hu⟩ := currencyAt_upper
        (fun w2 hw2 => hcodes w2 (by simp [hw2])) h
      exact ⟨w2, by simp [hw2], hu⟩

theorem findCurrencyAux_upper : ∀ (s : List Char) (prev : Option Char) (m : List Char),
    findCurrencyAux prev s = some m → ∃ w ∈ currencyCodes, m.map upperChar = w := by
  intro s
  induction s with
  | nil =>
    intro prev m h
    unfold findCurrencyAux at h
    dsimp only [] at h
    split at h
    · rename_i heq
      rw [Option.some_inj] at h
      subst h
      by_cases hb : (prev.map isWordChar).getD false = true
      · rw [if_pos hb] at heq
        cases heq
      · rw [if_neg hb] at heq
        exact currencyAt_upper (by decide) heq
    · cases h
  | cons c t ih =>
    intro prev m h
    unfold findCurrencyAux at h
    dsimp only [] at h
    split at h
    · rename_i heq
      rw [Option.some_inj] at h
      subst h
      by_cases hb : (prev.map isWordChar).getD false = true
      · rw [if_pos hb] at heq
        cases heq
      · rw [if_neg hb] at heq
        exact currencyAt_upper (by decide) heq
    · exact ih (some c) m h

/-! ## Claim theorem for the currency field -/

/-- C8: the currency field is always present and drawn from the fixed
alphabet; it is the uppercased first case-insensitive whole-word
occurrence of one of the codes, and `"NOK"` when there is none. -/
theorem C8_currency_alphabet (text : List Char) :
    (extractStructuredFields text).currency ∈
      ["NOK".toList, "EUR".toList, "USD".toList, "GBP".toList,
       "SEK".toList, "DKK".toList] ∧
    (findCurrency text = none →
      (extractStructuredFields text).currency = "NOK".toList) ∧
    (∀ m, findCurrency text = some m →
      (extractStructuredFields text).currency = m.map upperChar) := by
  cases hf : findCurrency text with
  | none =>
    have hc : (extractStructuredFields text).currency = "NOK".toList := by
      show (match findCurrency text with
            | some m => m.map upperChar
            | none => "NOK".toList) = "NOK".toList
      rw [hf]
    refine ⟨by rw [hc]; simp, fun _ => hc, fun m hm => ?_⟩
    exact absurd hm (by simp)
  | some m =>
    have hc : (extractStructuredFields text).currency = m.map upperChar := by
      show (match findCurrency text with
            | some m2 => m2.map upperChar
            | none => "NOK".toList) = m.map upperChar
      rw [hf]
    refine ⟨?_, fun hn => absurd hn (by simp), fun m2 hm2 => ?_⟩
    · obtain ⟨w, hw, hu⟩ := findCurrencyAux_upper text none m hf
      rw [hc, hu]
      revert hw
      unfold currencyCodes
      intro hw
      simp only [List.mem_cons, List.mem_singleton, List.not_mem_nil, or_false] at hw
      rcases hw with h | h | h | h | h | h
      all_goals subst h
      all_goals simp
    · injection hm2 with hm2
      rw [hc, hm2]

/-- Witness for C8 on a text with an explicit currency token. -/
theorem C8_witness :
    (extractStructuredFields "Total 125.50 eur".toList).currency ∈
      ["NOK".toList, "EUR".toList, "USD".toList, "GBP".toList,
       "SEK".toList, "DKK".toList] ∧
    ((extractStructuredFields "Total 125.50 eur".toList).currency = "EUR".toList) :=
  ⟨(C8_currency_alphabet "Total 125.50 eur".toList).1, by decide⟩

/-! ## Merchant detection: every route yields at most 60 characters -/

theorem squeezeAux_length : ∀ (b : Bool) (l : List Char),
    (squeezeAux b l).length ≤ 2 * nonWsCount l + (if b then 0 else 1)
  | _, [] => by simp [squeezeAux, nonWsCount]
  | b, c :: cs => by
    unfold squeezeAux nonWsCount
    rw [List.countP_cons]
    have ihT := squeezeAux_length true cs
    have ihF := squeezeAux_length false cs
    unfold nonWsCount at ihT ihF
    simp only [if_pos rfl, if_true, eq_self_iff_true] at ihT
    simp only [Bool.false_eq_true, if_false] at ihF
    by_cases hws : isJsWs c = true
    · rw [if_pos hws, if_neg (show ¬ (!isJsWs c) = true by simp [hws])]
      cases b with
      | true =>
        simp only [if_pos rfl, if_true, eq_self_iff_true]
        omega
      | false =>
        simp only [Bool.false_eq_true, if_false, List.length_cons]
        omega
    · rw [if_neg hws, if_pos (show (!isJsWs c) = true by simp [hws])]
      simp only [List.length_cons]
      cases b with
      | true =>
        simp only [if_pos rfl, if_true, eq_self_iff_true]
        omega
      | false => simp only [Bool.false_eq_true, if_false]; omega

theorem squeezeWS_length (l : List Char) :
    (squeezeWS l).length ≤ 2 * nonWsCount l + 1 := by
  have := squeezeAux_length false l
  simpa [squeezeWS] using this

theorem matchLit_length : ∀ {w s m r : List Char},
    matchLit w s = some (m, r) → m.length = w.length
  | [], s, m, r, h => by
    unfold matchLit at h
    injection h with h
    rw [Prod.mk.injEq] at h
    rw [← h.1]
  | _ :: _, [], m, r, h => by cases h
  | p :: ps, a :: as, m, r, h => by
    unfold matchLit at h
    split at h
    · cases hm : matchLit ps as with
      | none => rw [hm] at h; cases h
      | some pr =>
        obtain ⟨m2, r2⟩ := pr
        rw [hm] at h
        dsimp only [] at h
        injection h with h
        rw [Prod.mk.injEq] at h
        rw [← h.1]
        simp [matchLit_length hm]
    · cases h

theorem countP_takeWhile_ws (r : List Char) :
    nonWsCount (r.takeWhile isJsWs) = 0 := by
  unfold nonWsCount
  rw [List.countP_eq_zero]
  intro a ha
  simp [List.mem_takeWhile_imp ha]

theorem matchWords_nonws : ∀ {ws : List (List Char)} {s m r : List Char},
    matchWords ws s = some (m, r) → nonWsCount m ≤ wordsLen ws
  | [], s, m, r, h => by
    unfold matchWords at h
    injection h with h
    rw [Prod.mk.injEq] at h
    rw [← h.1]
    simp [nonWsCount, wordsLen]
  | [w], s, m, r, h => by
    unfold matchWords at h
    have hl := matchLit_length h
    calc nonWsCount m ≤ m.length := List.countP_le_length _
      _ = w.length := hl
      _ ≤ wordsLen [w] := by simp [wordsLen]
  | w :: w2 :: ws, s, m, r, h => by
    unfold matchWords at h
    cases hm : matchLit w s with
    | none => rw [hm] at h; cases h
    | some pr =>
      obtain ⟨m1, r1⟩ := pr
      rw [hm] at h
      dsimp only [] at h
      cases hm2 : matchWords (w2 :: ws) (r1.dropWhile isJsWs) with
      | none => rw [hm2] at h; cases h
      | some pr2 =>
        obtain ⟨m2, r2⟩ := pr2
        rw [hm2] at h
        dsimp only [] at h
        injection h with h
        rw [Prod.mk.injEq] at h
        rw [← h.1]
        unfold nonWsCount
        rw [List.countP_append, List.countP_append]
        have h1 : (m1.countP fun c => !isJsWs c) ≤ w.length :=
          le_trans (List.countP_le_length _) (le_of_eq (matchLit_length hm))
        have h2 := countP_takeWhile_ws r1
        unfold nonWsCount at h2
        have h3 := matchWords_nonws hm2
        unfold nonWsCount at h3
        have hw : wordsLen (w :: w2 :: ws) = w.length + wordsLen (w2 :: ws) := by
          simp [wordsLen]
        omega

theorem searchWords_nonws {ws : List (List Char)} : ∀ {s m : List Char},
    searchWords ws s = some m → nonWsCount m ≤ wordsLen ws := by
  intro s
  induction s with
  | nil =>
    intro m h
    unfold searchWords at h
    cases hm : matchWords ws [] with
    | none => rw [hm] at h; cases h
    | some pr =>
      obtain ⟨m1, r1⟩ := pr
      rw [hm] at h
      injection h with h
      subst h
      exact matchWords_nonws hm
  | cons c t ih =>
    intro m h
    unfold searchWords at h
    cases hm : matchWords ws (c :: t) with
    | none =>
      rw [hm] at h
      exact ih h
    | some pr =>
      obtain ⟨m1, r1⟩ := pr
      rw [hm] at h
      dsimp only [] at h
      injection h with h
      subst h
      exact matchWords_nonws hm

theorem searchWords_single_length {w : List Char} : ∀ {s m : List Char},
    searchWords [w] s = some m → m.length = w.length := by
  intro s
  induction s with
  | nil =>
    intro m h
    unfold searchWords at h
    cases hm : matchWords [w] [] with
    | none => rw [hm] at h; cases h
    | some pr =>
      obtain ⟨m1, r1⟩ := pr
      rw [hm] at h
      injection h with h
      subst h
      exact matchLit_length hm
  | cons c t ih =>
    intro m h
    unfold searchWords at h
    cases hm : matchWords [w] (c :: t) with
    | none =>
      rw [hm] at h
      exact ih h
    | some pr =>
      obtain ⟨m1, r1⟩ := pr
      rw [hm] at h
      dsimp only [] at h
      injection h with h
      subst h
      exact matchLit_length hm

theorem storeGo_length {text : List Char} : ∀ {ps : List (List (List Char))} {m : List Char},
    (∀ p ∈ ps, wordsLen p ≤ 14) → storeGo text ps = some m → m.length ≤ 60
  | [], m, _, h => by cases h
  | p :: ps, m, hps, h => by
    unfold storeGo at h
    cases hm : searchWords p text with
    | none =>
      rw [hm] at h
      exact storeGo_length (fun p2 hp2 => hps p2 (by simp [hp2])) h
    | some mm =>
      rw [hm] at h
      dsimp only [] at h
      injection h with h
      subst h
      split
      · cases ha : searchWords ["ANTONSPORT".toList] text with
        | some am =>
          show am.length ≤ 60
          rw [searchWords_single_length ha]
          decide
        | none =>
          show (trimWS (squeezeWS mm)).length ≤ 60
          calc (trimWS (squeezeWS mm)).length
              ≤ (squeezeWS mm).length := trimWS_length_le _
            _ ≤ 2 * nonWsCount mm + 1 := squeezeWS_length mm
            _ ≤ 2 * wordsLen p + 1 := by
                have := searchWords_nonws hm
                omega
            _ ≤ 60 := by
                have := hps p (by simp)
                omega
      · calc (trimWS (squeezeWS mm)).length
            ≤ (squeezeWS mm).length := trimWS_length_le _
          _ ≤ 2 * nonWsCount mm + 1 := squeezeWS_length mm
          _ ≤ 2 * wordsLen p + 1 := by
              have := searchWords_nonws hm
              omega
          _ ≤ 60 := by
              have := hps p (by simp)
              omega

theorem take60_trim_length (l : List Char) : (trimWS (l.take 60)).length ≤ 60 :=
  le_trans (trimWS_length_le _) (by simp [List.length_take])

theorem merchantOf_length {text : List Char} {lines : List (List Char)} {m : List Char}
    (h : merchantOf text lines = some m) : m.length ≤ 60 := by
  unfold merchantOf at h
  cases hs : storeGo text storePatterns with
  | some m2 =>
    rw [hs] at h
    try dsimp only [] at h
    injection h with h
    subst h
    exact storeGo_length (by decide) hs
  | none =>
    rw [hs] at h
    try dsimp only [] at h
    have hhead : ∀ {m2 : List Char}, lines.head?.map (fun l => l.take 60) = some m2 →
        m2.length ≤ 60 := by
      intro m2 hm2
      cases hl : lines.head? with
      | none => rw [hl] at hm2; cases hm2
      | some l =>
        rw [hl] at hm2
        try dsimp only [] at hm2
        injection hm2 with hm2
        subst hm2
        simp [List.length_take]
    cases hidx : lines.findIdx? orgLineTest with
    | none =>
      rw [hidx] at h
      exact hhead h
    | some idx =>
      rw [hidx] at h
      try dsimp only [] at h
      cases hfind : ((lines.take idx).drop (idx - 3)).find? merchLineOk with
      | none =>
        rw [hfind] at h
        exact hhead h
      | some l =>
        rw [hfind] at h
        try dsimp only [] at h
        injection h with h
        subst h
        exact take60_trim_length l

/-! ## Claim theorem for the merchant field -/

/-- C9: a present merchant is at most 60 characters, on all three
detection routes (store pattern, org-id heuristic, first-line
fallback). -/
theorem C9_merchant_at_most_60 (text m : List Char)
    (h : (extractStructuredFields text).merchant = some m) : m.length ≤ 60 :=
  merchantOf_length h

/-- Witness for C9 on a store-pattern receipt. -/
theorem C9_witness : ("COOP PRIX".toList).length ≤ 60 :=
  C9_merchant_at_most_60 "COOP PRIX\nStorgata 1".toList "COOP PRIX".toList (by decide)

/-- C10: `parseNorwegianCurrency` never returns a negative number (every
character other than a digit or dot — a minus sign included — is stripped
before the final parse), and the negated token `"-123,45"` normalizes to
the positive value `123.45`. -/
theorem C10_nonneg_and_minus_stripped (s : List Char) (q : ℚ)
    (h : parseNorwegianCurrency s = some q) :
    0 ≤ q ∧ parseNorwegianCurrency "-123,45".toList = some ((12345 : ℚ) / 100) := by
  refine ⟨parseNorwegianCurrency_nonneg h, ?_⟩
  rw [show parseNorwegianCurrency "-123,45".toList = some (mkRat 12345 100) from by
    decide, Rat.mkRat_eq_div]
  norm_num

/-- Witness for C10 at the concrete input `"-123,45"`. -/
theorem C10_witness :
    0 ≤ mkRat 12345 100 ∧
    parseNorwegianCurrency "-123,45".toList = some ((12345 : ℚ) / 100) :=
  C10_nonneg_and_minus_stripped "-123,45".toList (mkRat 12345 100) (by decide)

end MoneyFlow
